import Mathlib

/-!
The analyzer `tfschemafield` of field-name-checker: a shallow embedding of `main.go`.

The analyzer walks the syntax trees of a package, collects the schema keys that
are declared (composite-literal keys and string indices on the left of an
assignment), collects the dotted components of the string literals passed to the
accessor calls `HasChange`, `HasChanges`, `Get`, `Set`, `GetOk`, `GetChange`, and
reports every collected component that is not a declared key.

Conventions of the embedding.

* A Go `string` is a Lean `String`.  The library functions used by the program
  look only at the ASCII characters `"`, `.`, `+`, `-`, `#` and `0`..`9`, which
  are single bytes in UTF-8, so working on characters agrees with Go's bytes.
* A Go slice is a `List`; the `nil` slice is `[]`.
* A Go `map[string][]token.Pos` is an association list with one entry per key.
  Go leaves the iteration order of a map unspecified; the embedding iterates in
  the order of first insertion, and the theorems speak only of properties that
  do not depend on the order (membership, counts, permutations).
* An `ast.Node` that may be `nil` is an `Option Node`.
-/

namespace FieldNameChecker

/-! ## Library functions of Go used by the program -/

/-- The type `token.Pos`: an offset in the file set, `0` meaning no position. -/
abbrev Pos := Int

/-- The literal kinds of `go/token` that a `BasicLit` can carry. -/
inductive Token where
  | INT
  | FLOAT
  | IMAG
  | CHAR
  | STRING
  deriving DecidableEq, Repr

/-- Go's `strings.Trim s cutset`: `s` without the leading and the trailing
characters that occur in `cutset`. -/
def Trim (s cutset : String) : String :=
  ⟨((s.data.dropWhile (fun c => decide (c ∈ cutset.data))).reverse.dropWhile
      (fun c => decide (c ∈ cutset.data))).reverse⟩

/-- Splitting a list of characters at every occurrence of `sep`; the result has
one more piece than there are separators. -/
def splitChars (sep : Char) : List Char → List (List Char)
  | [] => [[]]
  | c :: cs =>
    if c = sep then [] :: splitChars sep cs
    else
      match splitChars sep cs with
      | [] => [[c]]
      | w :: ws => (c :: w) :: ws

/-- Go's `strings.Split s sep` for a separator of one character (the program
calls it with `"."` only). -/
def Split (s : String) (sep : Char) : List String :=
  (splitChars sep s.data).map String.mk

/-- The number a list of decimal digits denotes. -/
def decimalValue (ds : List Char) : Nat :=
  ds.foldl (fun n c => 10 * n + (c.toNat - 48)) 0

/-- A non-empty list of decimal digits `0`..`9`. -/
def isDigits (ds : List Char) : Bool :=
  !ds.isEmpty && ds.all Char.isDigit

/-- The width of Go's `int` on the 64-bit platforms the tool is built for. -/
def intSize : Nat := 64

/-- Modelled from the spec: `strconv.Atoi` belongs to Go's standard library and is
not among the sources; "parses as an integer" is what that function accepts: an
optional sign `+` or `-`, then one or more decimal digits, the number being in
the range of `int`.  `none` stands for a non-nil error. -/
def Atoi (s : String) : Option Int :=
  let body (neg : Bool) (ds : List Char) : Option Int :=
    if isDigits ds then
      if neg then
        (if decimalValue ds ≤ 2 ^ (intSize - 1) then some (-(decimalValue ds : Int)) else none)
      else
        (if decimalValue ds < 2 ^ (intSize - 1) then some (decimalValue ds : Int) else none)
    else none
  match s.data with
  | '-' :: ds => body true ds
  | '+' :: ds => body false ds
  | ds => body false ds

/-! ## Syntax trees (`go/ast`) -/

/-- The node `ast.Ident`. -/
structure Ident where
  NamePos : Pos
  Name : String
  deriving DecidableEq, Repr

/-- The nodes of `go/ast` the analyzer tells apart.  Every other kind of node
(files, declarations, blocks, statements, other expressions) is `Other`, with
its position and its children in the order `ast.Walk` visits them. -/
inductive Node where
  | BasicLit (ValuePos : Pos) (Kind : Token) (Value : String)
  | Ident (id : Ident)
  | KeyValueExpr (Key : Node) (Value : Node)
  | CompositeLit (Typ : Option Node) (Lbrace : Pos) (Elts : List Node)
  | IndexExpr (X : Node) (Index : Node)
  | SelectorExpr (X : Node) (Sel : Ident)
  | CallExpr (Fun : Node) (Args : List Node)
  | AssignStmt (Lhs : List Node) (Rhs : List Node)
  | Other (pos : Pos) (children : List Node)

/-- The method `Pos()` of a node: the position of its first character. -/
def Node.Pos : Node → Pos
  | .BasicLit p _ _ => p
  | .Ident id => id.NamePos
  | .KeyValueExpr k _ => k.Pos
  | .CompositeLit (some t) _ _ => t.Pos
  | .CompositeLit none lb _ => lb
  | .IndexExpr x _ => x.Pos
  | .SelectorExpr x _ => x.Pos
  | .CallExpr f _ => f.Pos
  | .AssignStmt (l :: _) _ => l.Pos
  | .AssignStmt [] _ => 0
  | .Other p _ => p

mutual
/-- The function `ast.Inspect node f` (through `ast.Walk`), with the state the
closure `f` updates made explicit: `f` is called on the node; when it answers
`false` the walk of this node ends; otherwise the children are walked in the
order of `ast.Walk` and `f` is called once more, on `nil`. -/
def Inspect {σ : Type} (f : Option Node → σ → σ × Bool) : Node → σ → σ
  | .BasicLit p k v, s =>
    let r := f (some (.BasicLit p k v)) s
    if r.2 then (f none r.1).1 else r.1
  | .Ident id, s =>
    let r := f (some (.Ident id)) s
    if r.2 then (f none r.1).1 else r.1
  | .KeyValueExpr k v, s =>
    let r := f (some (.KeyValueExpr k v)) s
    if r.2 then (f none (Inspect f v (Inspect f k r.1))).1 else r.1
  | .CompositeLit (some t) lb es, s =>
    let r := f (some (.CompositeLit (some t) lb es)) s
    if r.2 then (f none (InspectList f es (Inspect f t r.1))).1 else r.1
  | .CompositeLit none lb es, s =>
    let r := f (some (.CompositeLit none lb es)) s
    if r.2 then (f none (InspectList f es r.1)).1 else r.1
  | .IndexExpr x i, s =>
    let r := f (some (.IndexExpr x i)) s
    if r.2 then (f none (Inspect f i (Inspect f x r.1))).1 else r.1
  | .SelectorExpr x sel, s =>
    let r := f (some (.SelectorExpr x sel)) s
    if r.2 then
      let s1 := Inspect f x r.1
      let r2 := f (some (.Ident sel)) s1
      let s2 := if r2.2 then (f none r2.1).1 else r2.1
      (f none s2).1
    else r.1
  | .CallExpr fn args, s =>
    let r := f (some (.CallExpr fn args)) s
    if r.2 then (f none (InspectList f args (Inspect f fn r.1))).1 else r.1
  | .AssignStmt lhs rhs, s =>
    let r := f (some (.AssignStmt lhs rhs)) s
    if r.2 then (f none (InspectList f rhs (InspectList f lhs r.1))).1 else r.1
  | .Other p cs, s =>
    let r := f (some (.Other p cs)) s
    if r.2 then (f none (InspectList f cs r.1)).1 else r.1
/-- The walk of a list of children, one after the other. -/
def InspectList {σ : Type} (f : Option Node → σ → σ × Bool) : List Node → σ → σ
  | [], s => s
  | n :: ns, s => InspectList f ns (Inspect f n s)
end

/-! ## The predicates of `main.go` -/

/-- The function `getCompositeLiteralKey`: the key of a key/value pair whose key
is a string literal. -/
def getCompositeLiteralKey : Option Node → String × Bool
  | some (.KeyValueExpr (.BasicLit _ .STRING v) _) => (Trim v "\"", true)
  | _ => ("", false)

/-- The loop of `getStringLiteralInAssignment` over the left-hand sides. -/
def lhsLoop : List Node → String × Bool
  | [] => ("", false)
  | .IndexExpr _ (.BasicLit _ .STRING v) :: _ => (Trim v "\"", true)
  | _ :: rest => lhsLoop rest

/-- The function `getStringLiteralInAssignment`: the string index of the first
left-hand side that is an index expression with a string-literal index. -/
def getStringLiteralInAssignment : Option Node → String × Bool
  | some (.AssignStmt lhs _) => lhsLoop lhs
  | _ => ("", false)

/-- The function `getFunctionName`: the name a call invokes. -/
def getFunctionName : Option Node → String
  | some (.CallExpr (.SelectorExpr _ sel) _) => sel.Name
  | some (.CallExpr (.Ident id) _) => id.Name
  | _ => ""

/-- The function `getFunctionArguments`: the arguments of a call. -/
def getFunctionArguments : Option Node → List Node
  | some (.CallExpr _ args) => args
  | _ => []

/-- The function `getArgumentComponents`: the dotted components of a
string-literal argument. -/
def getArgumentComponents : Node → List String
  | .BasicLit _ .STRING v => Split (Trim v "\"") '.'
  | _ => []

/-! ## The analysis `run` -/

/-- The map `argumentComponentSet`, of type `map[string][]token.Pos`. -/
abbrev PosMap := List (String × List Pos)

/-- The value `m[k]` of a map; the `nil` slice when `k` is not a key. -/
def PosMap.get : PosMap → String → List Pos
  | [], _ => []
  | (k1, v) :: rest, k => if k1 = k then v else PosMap.get rest k

/-- The keys of a map. -/
def PosMap.keys (m : PosMap) : List String := m.map Prod.fst

/-- The statement `m[k] = append(m[k], p)`. -/
def PosMap.appendAt : PosMap → String → Pos → PosMap
  | [], k, p => [(k, [p])]
  | (k1, v) :: rest, k, p =>
    if k1 = k then (k1, v ++ [p]) :: rest else (k1, v) :: PosMap.appendAt rest k p

/-- The two collections `run` fills during the walk. -/
structure State where
  schemaKeysSet : List String
  argumentComponentSet : PosMap
  deriving DecidableEq, Repr

/-- The accessor names `run` looks for. -/
def allowList : List String := ["HasChange", "HasChanges", "Get", "Set", "GetOk", "GetChange"]

/-- The inner loop of `run`, over the components of one argument: a component
that `Atoi` accepts, and the component `"#"`, are skipped; every other one gets
the position of the argument appended under its own key. -/
def compsLoop (arg : Node) : List String → PosMap → PosMap
  | [], m => m
  | comp :: rest, m =>
    if (Atoi comp).isSome || comp == "#" then compsLoop arg rest m
    else compsLoop arg rest (m.appendAt comp arg.Pos)

/-- The loop of `run` over the arguments of an accessor call; it is left after
the first argument unless the call is named `HasChanges`. -/
def argsLoop (functionName : String) : List Node → PosMap → PosMap
  | [], m => m
  | arg :: rest, m =>
    let m1 := compsLoop arg (getArgumentComponents arg) m
    if functionName ≠ "HasChanges" then m1 else argsLoop functionName rest m1

/-- The closure `run` passes to `ast.Inspect`, on the state it captures. -/
def visit (n : Option Node) (s : State) : State × Bool :=
  let keys1 :=
    match getCompositeLiteralKey n with
    | (key, true) => s.schemaKeysSet.insert key
    | _ => s.schemaKeysSet
  let keys2 :=
    match getStringLiteralInAssignment n with
    | (str, true) => keys1.insert str
    | _ => keys1
  let functionName := getFunctionName n
  let refs :=
    if functionName ∈ allowList then
      argsLoop functionName (getFunctionArguments n) s.argumentComponentSet
    else s.argumentComponentSet
  (⟨keys2, refs⟩, true)

/-- The first loop of `run`: every file is inspected with `visit`, starting from
two empty collections. -/
def collect (files : List Node) : State :=
  files.foldl (fun s file => Inspect visit file s) ⟨[], []⟩

/-- A call of `pass.Reportf`: a position and the formatted message. -/
structure Diagnostic where
  pos : Pos
  message : String
  deriving DecidableEq, Repr

/-- The message `run` formats for the key `k`. -/
def notFound (k : String) : String :=
  "schema field/component '" ++ k ++ "' not found in package"

/-- The second loop of `run`: for every key of the map that is not a schema key,
one report per recorded position. -/
def report (schemaKeysSet : List String) : PosMap → List Diagnostic
  | [] => []
  | (k, v) :: rest =>
    if k ∈ schemaKeysSet then report schemaKeysSet rest
    else v.map (fun pos => Diagnostic.mk pos (notFound k)) ++ report schemaKeysSet rest

/-- What a call of `run` leaves behind: the reports made, the result and the
error it returns (`none` for `nil`). -/
structure Outcome where
  diagnostics : List Diagnostic
  result : Option Unit
  err : Option String
  deriving DecidableEq, Repr

/-- The function `run` on the files of a pass. -/
def run (files : List Node) : Outcome :=
  let s := collect files
  ⟨report s.schemaKeysSet s.argumentComponentSet, none, none⟩

/-! ## The visiting order, as a list -/

mutual
/-- The sequence of calls `ast.Inspect` makes to a visitor that always answers
`true`: the node, then its children in the order of `ast.Walk`, then `nil`. -/
def Node.visits : Node → List (Option Node)
  | .BasicLit p k v => [some (.BasicLit p k v), none]
  | .Ident id => [some (.Ident id), none]
  | .KeyValueExpr k v => some (.KeyValueExpr k v) :: (k.visits ++ (v.visits ++ [none]))
  | .CompositeLit (some t) lb es =>
    some (.CompositeLit (some t) lb es) :: (t.visits ++ (Node.visitsList es ++ [none]))
  | .CompositeLit none lb es =>
    some (.CompositeLit none lb es) :: (Node.visitsList es ++ [none])
  | .IndexExpr x i => some (.IndexExpr x i) :: (x.visits ++ (i.visits ++ [none]))
  | .SelectorExpr x sel =>
    some (.SelectorExpr x sel) :: (x.visits ++ ([some (.Ident sel), none] ++ [none]))
  | .CallExpr f args => some (.CallExpr f args) :: (f.visits ++ (Node.visitsList args ++ [none]))
  | .AssignStmt lhs rhs =>
    some (.AssignStmt lhs rhs) :: (Node.visitsList lhs ++ (Node.visitsList rhs ++ [none]))
  | .Other p cs => some (.Other p cs) :: (Node.visitsList cs ++ [none])
/-- The calls made for a list of children, one child after the other. -/
def Node.visitsList : List Node → List (Option Node)
  | [] => []
  | n :: ns => n.visits ++ Node.visitsList ns
end

/-! ## Helper definitions for the proofs -/

/-- The arguments the loop of `run` looks at: all of them for `HasChanges`, the
first one only for every other name. -/
def checkedArgs (functionName : String) (args : List Node) : List Node :=
  if functionName = "HasChanges" then args else args.take 1

/-- Whether the inner loop of `run` skips a component. -/
def skipped (comp : String) : Bool := (Atoi comp).isSome || comp == "#"

/-- The entries one argument adds to the map, in order. -/
def entriesOfArg (arg : Node) : List (String × Pos) :=
  ((getArgumentComponents arg).filter (fun c => !skipped c)).map (fun c => (c, arg.Pos))

/-- The entries one visited node adds to the map, in order. -/
def entriesOf (n : Option Node) : List (String × Pos) :=
  if getFunctionName n ∈ allowList then
    (checkedArgs (getFunctionName n) (getFunctionArguments n)).flatMap entriesOfArg
  else []

/-- Appending a list of entries to a map, one after the other. -/
def PosMap.appendAll (m : PosMap) (es : List (String × Pos)) : PosMap :=
  es.foldl (fun m e => m.appendAt e.1 e.2) m

/-- The keys one visited node declares. -/
def declaredBy (n : Option Node) : List String :=
  (match getCompositeLiteralKey n with
    | (key, true) => [key]
    | _ => []) ++
  (match getStringLiteralInAssignment n with
    | (str, true) => [str]
    | _ => [])

/-- All the calls `run` makes to its closure, over all files. -/
def allVisits (files : List Node) : List (Option Node) :=
  files.flatMap Node.visits

/-! ## Examples used below -/

/-- A file with the one statement `d.HasChange("-1")`. -/
def signedIndexFile : Node :=
  .Other 1 [.CallExpr (.SelectorExpr (.Ident ⟨10, "d"⟩) ⟨12, "HasChange"⟩)
    [.BasicLit 22 .STRING "\"-1\""]]

/-- A file that declares the key `name` and calls `d.HasChange("nmae")`. -/
def typoFile : Node :=
  .Other 1 [
    .CompositeLit none 5 [.KeyValueExpr (.BasicLit 6 .STRING "\"name\"") (.Other 14 [])],
    .CallExpr (.SelectorExpr (.Ident ⟨30, "d"⟩) ⟨32, "HasChange"⟩)
      [.BasicLit 42 .STRING "\"nmae\""]]

/-- A file that declares the key `name` and calls `d.HasChange("name")` twice. -/
def declaredFile : Node :=
  .Other 1 [
    .CallExpr (.SelectorExpr (.Ident ⟨3, "d"⟩) ⟨5, "HasChange"⟩) [.BasicLit 15 .STRING "\"name\""],
    .CompositeLit none 25 [.KeyValueExpr (.BasicLit 26 .STRING "\"name\"") (.Other 34 [])],
    .CallExpr (.Ident ⟨50, "Get"⟩) [.BasicLit 54 .STRING "\"name\""]]

/-- A file with the one statement `d.Get("99999999999999999999")`. -/
def bigIndexFile : Node :=
  .Other 1 [.CallExpr (.SelectorExpr (.Ident ⟨10, "d"⟩) ⟨12, "Get"⟩)
    [.BasicLit 16 .STRING "\"99999999999999999999\""]]

/-- A file that declares the key `name` with a raw literal and calls
`d.Get("name")`. -/
def rawKeyFile : Node :=
  .Other 1 [
    .CompositeLit none 5 [.KeyValueExpr (.BasicLit 6 .STRING "`name`") (.Other 14 [])],
    .CallExpr (.SelectorExpr (.Ident ⟨30, "d"⟩) ⟨32, "Get"⟩) [.BasicLit 36 .STRING "\"name\""]]

/-- A file with the one statement `d.HasChange(someVariable)`. -/
def variableArgFile : Node :=
  .Other 1 [.CallExpr (.SelectorExpr (.Ident ⟨10, "d"⟩) ⟨12, "HasChange"⟩)
    [.Ident ⟨22, "someVariable"⟩]]

/-- A file that only declares the key `nmae`, by an indexed assignment. -/
def lateDeclarationFile : Node :=
  .Other 1 [.AssignStmt [.IndexExpr (.Ident ⟨3, "s"⟩) (.BasicLit 5 .STRING "\"nmae\"")]
    [.Other 15 []]]

/-- Joining lists of characters with a separator between neighbours. -/
def joinChars (sep : List Char) : List (List Char) → List Char
  | [] => []
  | [a] => a
  | a :: b :: rest => a ++ (sep ++ joinChars sep (b :: rest))

/-- Go's `strings.Join elems sep`: the elements with `sep` between neighbours. -/
def Join (elems : List String) (sep : String) : String :=
  ⟨joinChars sep.data (elems.map String.data)⟩

/-- A parsed file with one function: the file node with its package name and one
function declaration, which has its name, its type and a block of statements. -/
def sourceFile (stmts : List Node) : Node :=
  .Other 1 [.Ident ⟨9, "main"⟩,
    .Other 20 [.Ident ⟨25, "resource"⟩, .Other 33 [], .Other 40 stmts]]

/-- The statement `s[key] = v`, with `key` the text of a string literal. -/
def declareStmt (p : Pos) (key : String) : Node :=
  .AssignStmt [.IndexExpr (.Ident ⟨p, "s"⟩) (.BasicLit (p + 2) .STRING key)]
    [.Ident ⟨p + 12, "v"⟩]

/-- The expression statement `d.Get(arg)`, with `arg` the text of a string literal. -/
def getStmt (p : Pos) (arg : String) : Node :=
  .Other p [.CallExpr (.SelectorExpr (.Ident ⟨p, "d"⟩) ⟨p + 2, "Get"⟩)
    [.BasicLit (p + 6) .STRING arg]]

/-- The keys `a` and `b` are declared and `d.Get` is called on the raw literal `a.b`. -/
def rawPathFile : Node :=
  sourceFile [declareStmt 50 "\"a\"", declareStmt 70 "\"b\"", getStmt 110 "`a.b`"]

/-- The keys `a` and `b` are declared; the calls are `d.Get("a")` and `d.Get("b")`. -/
def splitPathFile : Node :=
  sourceFile [declareStmt 50 "\"a\"", declareStmt 70 "\"b\"", getStmt 110 "\"a\"",
    getStmt 130 "\"b\""]

/-- The keys `a` and `b` are declared; the calls are on the raw literals `a` and `b`. -/
def splitRawPathFile : Node :=
  sourceFile [declareStmt 50 "\"a\"", declareStmt 70 "\"b\"", getStmt 110 "`a`",
    getStmt 130 "`b`"]

/-- The one call `d.Get("a\".b")`, whose first component ends in an escaped quote. -/
def escapedPathFile : Node :=
  sourceFile [getStmt 110 "\"a\\\".b\""]

/-- The two calls `d.Get("a\"")` and `d.Get("b")`. -/
def escapedSplitFile : Node :=
  sourceFile [getStmt 110 "\"a\\\"\"", getStmt 130 "\"b\""]

/-! ## Lemmas on the walk -/

mutual
theorem Inspect_eq_foldl {σ : Type} (f : Option Node → σ → σ × Bool)
    (hf : ∀ o s, (f o s).2 = true) :
    ∀ (n : Node) (s : σ), Inspect f n s = n.visits.foldl (fun s o => (f o s).1) s
  | .BasicLit p k v, s => by simp [Inspect, Node.visits, hf]
  | .Ident id, s => by simp [Inspect, Node.visits, hf]
  | .KeyValueExpr k v, s => by
    simp [Inspect, Node.visits, hf, Inspect_eq_foldl f hf k, Inspect_eq_foldl f hf v]
  | .CompositeLit (some t) lb es, s => by
    simp [Inspect, Node.visits, hf, Inspect_eq_foldl f hf t, InspectList_eq_foldl f hf es]
  | .CompositeLit none lb es, s => by
    simp [Inspect, Node.visits, hf, InspectList_eq_foldl f hf es]
  | .IndexExpr x i, s => by
    simp [Inspect, Node.visits, hf, Inspect_eq_foldl f hf x, Inspect_eq_foldl f hf i]
  | .SelectorExpr x sel, s => by
    simp [Inspect, Node.visits, hf, Inspect_eq_foldl f hf x]
  | .CallExpr fn args, s => by
    simp [Inspect, Node.visits, hf, Inspect_eq_foldl f hf fn, InspectList_eq_foldl f hf args]
  | .AssignStmt lhs rhs, s => by
    simp [Inspect, Node.visits, hf, InspectList_eq_foldl f hf lhs, InspectList_eq_foldl f hf rhs]
  | .Other p cs, s => by
    simp [Inspect, Node.visits, hf, InspectList_eq_foldl f hf cs]
theorem InspectList_eq_foldl {σ : Type} (f : Option Node → σ → σ × Bool)
    (hf : ∀ o s, (f o s).2 = true) :
    ∀ (ns : List Node) (s : σ),
      InspectList f ns s = (Node.visitsList ns).foldl (fun s o => (f o s).1) s
  | [], s => by simp [InspectList, Node.visitsList]
  | n :: ns, s => by
    simp [InspectList, Node.visitsList, Inspect_eq_foldl f hf n, InspectList_eq_foldl f hf ns]
end

theorem visit_snd (o : Option Node) (s : State) : (visit o s).2 = true := rfl

theorem collect_eq_foldl (files : List Node) :
    collect files = (allVisits files).foldl (fun s o => (visit o s).1) ⟨[], []⟩ := by
  unfold collect allVisits
  generalize (⟨[], []⟩ : State) = s0
  induction files generalizing s0 with
  | nil => rfl
  | cons file rest ih =>
    simp only [List.foldl_cons, List.flatMap_cons, List.foldl_append]
    rw [ih, Inspect_eq_foldl visit visit_snd]

/-! ## Lemmas on the map -/

theorem PosMap.appendAll_nil (m : PosMap) : m.appendAll [] = m := rfl

theorem PosMap.appendAll_cons (m : PosMap) (e : String × Pos) (es : List (String × Pos)) :
    m.appendAll (e :: es) = (m.appendAt e.1 e.2).appendAll es := rfl

theorem PosMap.appendAll_append (m : PosMap) (es fs : List (String × Pos)) :
    m.appendAll (es ++ fs) = (m.appendAll es).appendAll fs := by
  simp [PosMap.appendAll, List.foldl_append]

theorem PosMap.get_appendAt (m : PosMap) (k : String) (p : Pos) (k1 : String) :
    (m.appendAt k p).get k1 = if k = k1 then m.get k1 ++ [p] else m.get k1 := by
  induction m with
  | nil =>
    by_cases h : k = k1 <;> simp [PosMap.appendAt, PosMap.get, h]
  | cons e rest ih =>
    obtain ⟨k2, v⟩ := e
    by_cases h2 : k2 = k
    · subst h2
      by_cases h : k2 = k1 <;> simp [PosMap.appendAt, PosMap.get, h]
    · by_cases h : k2 = k1
      · subst h
        have h3 : ¬ k = k2 := fun e => h2 e.symm
        simp [PosMap.appendAt, PosMap.get, h2, h3]
      · simp [PosMap.appendAt, PosMap.get, h2, h, ih]

theorem PosMap.keys_appendAt (m : PosMap) (k : String) (p : Pos) :
    (m.appendAt k p).keys = if k ∈ m.keys then m.keys else m.keys ++ [k] := by
  induction m with
  | nil => simp [PosMap.appendAt, PosMap.keys]
  | cons e rest ih =>
    obtain ⟨k2, v⟩ := e
    by_cases h2 : k2 = k
    · subst h2
      simp [PosMap.appendAt, PosMap.keys]
    · have h3 : ¬ k = k2 := fun e => h2 e.symm
      simp only [PosMap.keys] at ih
      by_cases h : k ∈ List.map Prod.fst rest
      · simp [PosMap.appendAt, PosMap.keys, h2, h3, ih, h]
      · simp [PosMap.appendAt, PosMap.keys, h2, h3, ih, h]

theorem PosMap.mem_keys_appendAt (m : PosMap) (k : String) (p : Pos) (k1 : String) :
    k1 ∈ (m.appendAt k p).keys ↔ k1 ∈ m.keys ∨ k1 = k := by
  rw [PosMap.keys_appendAt]
  by_cases h : k ∈ m.keys
  · simp only [h, if_true]
    constructor
    · exact Or.inl
    · rintro (h1 | h1)
      · exact h1
      · exact h1 ▸ h
  · simp [h]

theorem PosMap.nodup_keys_appendAt (m : PosMap) (k : String) (p : Pos)
    (h : m.keys.Nodup) : (m.appendAt k p).keys.Nodup := by
  rw [PosMap.keys_appendAt]
  by_cases hk : k ∈ m.keys
  · simpa [hk] using h
  · simp only [hk, if_false]
    exact List.Nodup.append h (List.nodup_singleton k) (by simpa using hk)

theorem PosMap.get_appendAll (m : PosMap) (es : List (String × Pos)) (k : String) :
    (m.appendAll es).get k = m.get k ++ (es.filter (fun e => decide (e.1 = k))).map Prod.snd := by
  induction es generalizing m with
  | nil => simp [PosMap.appendAll]
  | cons e rest ih =>
    rw [PosMap.appendAll_cons, ih, PosMap.get_appendAt]
    by_cases h : e.1 = k <;> simp [h, List.filter_cons]

theorem PosMap.mem_keys_appendAll (m : PosMap) (es : List (String × Pos)) (k : String) :
    k ∈ (m.appendAll es).keys ↔ k ∈ m.keys ∨ k ∈ es.map Prod.fst := by
  induction es generalizing m with
  | nil => simp [PosMap.appendAll]
  | cons e rest ih =>
    rw [PosMap.appendAll_cons, ih, PosMap.mem_keys_appendAt]
    simp only [List.map_cons, List.mem_cons]
    tauto

theorem PosMap.nodup_keys_appendAll (m : PosMap) (es : List (String × Pos))
    (h : m.keys.Nodup) : (m.appendAll es).keys.Nodup := by
  induction es generalizing m with
  | nil => simpa [PosMap.appendAll] using h
  | cons e rest ih =>
    rw [PosMap.appendAll_cons]
    exact ih _ (PosMap.nodup_keys_appendAt m e.1 e.2 h)

theorem PosMap.get_of_not_mem_keys (m : PosMap) (k : String) (h : k ∉ m.keys) :
    m.get k = [] := by
  induction m with
  | nil => rfl
  | cons e rest ih =>
    obtain ⟨k2, v⟩ := e
    simp only [PosMap.keys, List.map_cons, List.mem_cons, not_or] at h
    have h2 : ¬ k2 = k := fun e => h.1 e.symm
    simp only [PosMap.get, h2, if_false]
    exact ih h.2

/-! ## Lemmas on the closure -/

theorem compsLoop_eq (arg : Node) (comps : List String) (m : PosMap) :
    compsLoop arg comps m =
      m.appendAll ((comps.filter (fun c => !skipped c)).map (fun c => (c, arg.Pos))) := by
  induction comps generalizing m with
  | nil => rfl
  | cons c rest ih =>
    by_cases h : skipped c = true
    · have h1 : ((Atoi c).isSome || c == "#") = true := h
      simp only [compsLoop, h1, if_true, ih, List.filter_cons, h, Bool.not_true]
      rfl
    · have h0 : skipped c = false := by simpa using h
      have h1 : ((Atoi c).isSome || c == "#") = false := h0
      simp only [compsLoop, h1, ih, List.filter_cons, h0, Bool.not_false, if_true,
        List.map_cons, PosMap.appendAll_cons]
      rfl

theorem argsLoop_eq (functionName : String) (args : List Node) (m : PosMap) :
    argsLoop functionName args m =
      m.appendAll ((checkedArgs functionName args).flatMap entriesOfArg) := by
  by_cases hn : functionName = "HasChanges"
  · subst hn
    induction args generalizing m with
    | nil => rfl
    | cons a rest ih =>
      simp only [argsLoop, checkedArgs, if_true, List.flatMap_cons, PosMap.appendAll_append,
        ne_eq, not_true_eq_false, if_false]
      rw [ih, compsLoop_eq]
      simp [checkedArgs, entriesOfArg]
  · cases args with
    | nil => simp [argsLoop, checkedArgs, PosMap.appendAll]
    | cons a rest =>
      simp [argsLoop, checkedArgs, hn, compsLoop_eq, entriesOfArg]

theorem visit_argumentComponentSet (o : Option Node) (s : State) :
    (visit o s).1.argumentComponentSet = s.argumentComponentSet.appendAll (entriesOf o) := by
  by_cases h : getFunctionName o ∈ allowList
  · simp [visit, entriesOf, h, argsLoop_eq]
  · simp [visit, entriesOf, h, PosMap.appendAll]

theorem mem_visit_schemaKeysSet (o : Option Node) (s : State) (k : String) :
    k ∈ (visit o s).1.schemaKeysSet ↔ k ∈ s.schemaKeysSet ∨ k ∈ declaredBy o := by
  unfold visit declaredBy
  rcases getCompositeLiteralKey o with ⟨k1, b1⟩
  rcases getStringLiteralInAssignment o with ⟨k2, b2⟩
  cases b1 <;> cases b2 <;> simp [List.mem_insert_iff] <;> tauto

theorem foldl_visit_argumentComponentSet (l : List (Option Node)) (s : State) :
    (l.foldl (fun s o => (visit o s).1) s).argumentComponentSet =
      s.argumentComponentSet.appendAll (l.flatMap entriesOf) := by
  induction l generalizing s with
  | nil => rfl
  | cons o rest ih =>
    simp only [List.foldl_cons, List.flatMap_cons, PosMap.appendAll_append]
    rw [ih, visit_argumentComponentSet]

theorem mem_foldl_visit_schemaKeysSet (l : List (Option Node)) (s : State) (k : String) :
    k ∈ (l.foldl (fun s o => (visit o s).1) s).schemaKeysSet ↔
      k ∈ s.schemaKeysSet ∨ ∃ o ∈ l, k ∈ declaredBy o := by
  induction l generalizing s with
  | nil => simp
  | cons o rest ih =>
    simp only [List.foldl_cons, ih, mem_visit_schemaKeysSet, List.mem_cons, exists_eq_or_imp]
    tauto

theorem collect_argumentComponentSet (files : List Node) :
    (collect files).argumentComponentSet =
      PosMap.appendAll [] ((allVisits files).flatMap entriesOf) := by
  rw [collect_eq_foldl, foldl_visit_argumentComponentSet]

theorem mem_collect_schemaKeysSet (files : List Node) (k : String) :
    k ∈ (collect files).schemaKeysSet ↔ ∃ o ∈ allVisits files, k ∈ declaredBy o := by
  rw [collect_eq_foldl, mem_foldl_visit_schemaKeysSet]
  simp

theorem nodup_keys_collect (files : List Node) :
    (collect files).argumentComponentSet.keys.Nodup := by
  rw [collect_argumentComponentSet]
  exact PosMap.nodup_keys_appendAll [] _ (by simp [PosMap.keys])

/-! ## Lemmas on the reports -/

theorem notFound_injective (a b : String) (h : notFound a = notFound b) : a = b := by
  unfold notFound at h
  have h1 := congrArg String.data h
  simp only [String.data_append] at h1
  have h2 := List.append_cancel_right h1
  have h3 := List.append_cancel_left h2
  exact String.ext h3

theorem mem_report (D : List String) (m : PosMap) (d : Diagnostic) :
    d ∈ report D m ↔ ∃ e ∈ m, e.1 ∉ D ∧ d.pos ∈ e.2 ∧ d.message = notFound e.1 := by
  induction m with
  | nil => simp [report]
  | cons e rest ih =>
    obtain ⟨k, v⟩ := e
    by_cases hk : k ∈ D
    · simp only [report, hk, if_true, ih, List.mem_cons, exists_eq_or_imp, not_true_eq_false,
        false_and, false_or]
    · simp only [report, hk, if_false, List.mem_append, List.mem_map, ih, List.mem_cons,
        exists_eq_or_imp, not_false_eq_true, true_and]
      constructor
      · rintro (⟨p, hp, rfl⟩ | h)
        · exact Or.inl ⟨hp, rfl⟩
        · exact Or.inr h
      · rintro (⟨hp, hm⟩ | h)
        · refine Or.inl ⟨d.pos, hp, ?_⟩
          cases d
          simp only at hm
          simp [hm]
        · exact Or.inr h

theorem PosMap.get_of_mem (m : PosMap) (h : m.keys.Nodup) (e : String × List Pos)
    (he : e ∈ m) : m.get e.1 = e.2 := by
  induction m with
  | nil => cases he
  | cons e1 rest ih =>
    obtain ⟨k1, v1⟩ := e1
    simp only [PosMap.keys, List.map_cons, List.nodup_cons] at h
    rcases List.mem_cons.1 he with rfl | he1
    · simp [PosMap.get]
    · have hne : ¬ k1 = e.1 := by
        intro hk
        apply h.1
        rw [hk]
        exact List.mem_map_of_mem Prod.fst he1
      simp only [PosMap.get, hne, if_false]
      exact ih h.2 he1

theorem report_eq_nil_of_not_mem_keys (D : List String) (m : PosMap) (k : String)
    (hk : k ∉ m.keys) :
    (report D m).filter (fun d => decide (d.message = notFound k)) = [] := by
  rw [List.filter_eq_nil_iff]
  intro d hd
  rcases (mem_report D m d).1 hd with ⟨e, he, _, _, hm⟩
  simp only [decide_eq_true_eq]
  intro h
  apply hk
  have : e.1 = k := notFound_injective _ _ (hm.symm.trans h)
  rw [← this]
  exact List.mem_map_of_mem Prod.fst he

theorem filter_report (D : List String) (m : PosMap) (h : m.keys.Nodup) (k : String) :
    (report D m).filter (fun d => decide (d.message = notFound k)) =
      if k ∈ D then [] else (m.get k).map (fun p => Diagnostic.mk p (notFound k)) := by
  induction m with
  | nil => simp [report, PosMap.get]
  | cons e rest ih =>
    obtain ⟨k1, v1⟩ := e
    simp only [PosMap.keys, List.map_cons, List.nodup_cons] at h
    by_cases hk1 : k1 = k
    · subst hk1
      have hrest := report_eq_nil_of_not_mem_keys D rest k1 h.1
      by_cases hD : k1 ∈ D
      · simp only [report, hD, if_true, hrest]
      · simp only [report, hD, if_false, List.filter_append, hrest, List.append_nil,
          PosMap.get, if_true]
        rw [List.filter_eq_self]
        intro d hd
        rcases List.mem_map.1 hd with ⟨p, _, rfl⟩
        simp
    · have ih1 := ih h.2
      have hget : PosMap.get ((k1, v1) :: rest) k = PosMap.get rest k := by
        simp [PosMap.get, hk1]
      rw [hget, ← ih1]
      by_cases hD : k1 ∈ D
      · simp only [report, hD, if_true]
      · simp only [report, hD, if_false, List.filter_append]
        have : (v1.map (fun pos => Diagnostic.mk pos (notFound k1))).filter
            (fun d => decide (d.message = notFound k)) = [] := by
          rw [List.filter_eq_nil_iff]
          intro d hd
          rcases List.mem_map.1 hd with ⟨p, _, rfl⟩
          simp only [decide_eq_true_eq]
          intro hm
          exact hk1 (notFound_injective _ _ hm)
        rw [this, List.nil_append]

theorem PosMap.exists_of_mem_get (m : PosMap) (k : String) (p : Pos) (h : p ∈ m.get k) :
    ∃ e ∈ m, e.1 = k ∧ p ∈ e.2 := by
  induction m with
  | nil => simp [PosMap.get] at h
  | cons e rest ih =>
    obtain ⟨k1, v1⟩ := e
    by_cases hk : k1 = k
    · simp only [PosMap.get, hk, if_true] at h
      exact ⟨(k1, v1), List.mem_cons_self _ _, hk, h⟩
    · simp only [PosMap.get, hk, if_false] at h
      obtain ⟨e, he, h1, h2⟩ := ih h
      exact ⟨e, List.mem_cons_of_mem _ he, h1, h2⟩

theorem mem_allVisits (files : List Node) (o : Option Node) :
    o ∈ allVisits files ↔ ∃ file ∈ files, o ∈ file.visits := by
  simp [allVisits, List.mem_flatMap]

theorem mem_get_collect (files : List Node) (k : String) (p : Pos) :
    p ∈ (collect files).argumentComponentSet.get k ↔
      ∃ o ∈ allVisits files, (k, p) ∈ entriesOf o := by
  rw [collect_argumentComponentSet, PosMap.get_appendAll]
  simp only [PosMap.get, List.nil_append, List.mem_map, List.mem_filter, List.mem_flatMap,
    decide_eq_true_eq]
  constructor
  · rintro ⟨⟨k1, p1⟩, ⟨⟨o, ho, he⟩, hk⟩, hp⟩
    simp only at hk hp
    subst hk
    subst hp
    exact ⟨o, ho, he⟩
  · rintro ⟨o, ho, he⟩
    exact ⟨(k, p), ⟨⟨o, ho, he⟩, rfl⟩, rfl⟩

theorem mem_keys_collect (files : List Node) (k : String) :
    k ∈ (collect files).argumentComponentSet.keys ↔
      ∃ o ∈ allVisits files, ∃ p, (k, p) ∈ entriesOf o := by
  rw [collect_argumentComponentSet, PosMap.mem_keys_appendAll]
  simp only [PosMap.keys, List.map_nil, List.not_mem_nil, false_or, List.mem_map,
    List.mem_flatMap]
  constructor
  · rintro ⟨⟨k1, p1⟩, ⟨o, ho, he⟩, hk⟩
    simp only at hk
    subst hk
    exact ⟨o, ho, p1, he⟩
  · rintro ⟨o, ho, p, he⟩
    exact ⟨(k, p), ⟨o, ho, he⟩, rfl⟩

theorem mem_entriesOfArg (arg : Node) (k : String) (p : Pos) :
    (k, p) ∈ entriesOfArg arg ↔
      k ∈ getArgumentComponents arg ∧ skipped k = false ∧ p = arg.Pos := by
  simp only [entriesOfArg, List.mem_map, List.mem_filter, Bool.not_eq_true', Prod.mk.injEq]
  constructor
  · rintro ⟨c, ⟨hc, hs⟩, rfl, rfl⟩
    exact ⟨hc, hs, rfl⟩
  · rintro ⟨hc, hs, rfl⟩
    exact ⟨k, ⟨hc, hs⟩, rfl, rfl⟩

theorem mem_entriesOf (o : Option Node) (k : String) (p : Pos) :
    (k, p) ∈ entriesOf o ↔
      getFunctionName o ∈ allowList ∧
        ∃ arg ∈ checkedArgs (getFunctionName o) (getFunctionArguments o),
          k ∈ getArgumentComponents arg ∧ skipped k = false ∧ p = arg.Pos := by
  unfold entriesOf
  by_cases h : getFunctionName o ∈ allowList
  · simp only [h, if_true, List.mem_flatMap, mem_entriesOfArg, true_and]
  · simp [h]

theorem skipped_eq_false_iff (k : String) :
    skipped k = false ↔ Atoi k = none ∧ k ≠ "#" := by
  unfold skipped
  cases h : Atoi k <;> simp

/-! ## C1: completeness of `run` -/

/-- C1, as stated, fails: in the file `d.HasChange("-1")` the component `-1` of the
checked literal is not declared, is not a string of decimal digits and is not
`#`, and `run` reports nothing, because `Atoi` accepts a sign. -/
theorem run_completeness_digits_refuted :
    ¬ (∀ (files : List Node) (file fn : Node) (args : List Node) (p : Pos) (v R : String),
        file ∈ files →
        some (Node.CallExpr fn args) ∈ file.visits →
        getFunctionName (some (Node.CallExpr fn args)) ∈ allowList →
        Node.BasicLit p Token.STRING v ∈
          checkedArgs (getFunctionName (some (Node.CallExpr fn args))) args →
        R ∈ getArgumentComponents (Node.BasicLit p Token.STRING v) →
        R ∉ (collect files).schemaKeysSet →
        isDigits R.data = false →
        R ≠ "#" →
        Diagnostic.mk p (notFound R) ∈ (run files).diagnostics) := by
  intro h
  have h1 := h [signedIndexFile] signedIndexFile
    (.SelectorExpr (.Ident ⟨10, "d"⟩) ⟨12, "HasChange"⟩)
    [.BasicLit 22 .STRING "\"-1\""] 22 "\"-1\"" "-1"
    (List.mem_singleton.2 rfl)
    (by simp [signedIndexFile, Node.visits, Node.visitsList])
    (by decide)
    (by simp [checkedArgs, getFunctionName])
    (by decide) (by decide) (by decide) (by decide)
  revert h1
  decide

/-- C1 (amended): for every list of files, every call in them whose invoked name
is in the allow-list, and every component `R` of a checked string-literal
argument of that call: if `R` is not a collected schema key, `Atoi` does not
accept `R`, and `R` is not `#`, then `run` reports the message naming `R` at the
position of that argument. -/
theorem run_reports_unknown_component
    (files : List Node) (file fn : Node) (args : List Node) (p : Pos) (v R : String)
    (hfile : file ∈ files)
    (hcall : some (Node.CallExpr fn args) ∈ file.visits)
    (hname : getFunctionName (some (Node.CallExpr fn args)) ∈ allowList)
    (harg : Node.BasicLit p Token.STRING v ∈
      checkedArgs (getFunctionName (some (Node.CallExpr fn args))) args)
    (hR : R ∈ getArgumentComponents (Node.BasicLit p Token.STRING v))
    (hdecl : R ∉ (collect files).schemaKeysSet)
    (hint : Atoi R = none)
    (hsharp : R ≠ "#") :
    Diagnostic.mk p (notFound R) ∈ (run files).diagnostics := by
  have hget : p ∈ (collect files).argumentComponentSet.get R := by
    rw [mem_get_collect]
    refine ⟨some (Node.CallExpr fn args), (mem_allVisits _ _).2 ⟨file, hfile, hcall⟩, ?_⟩
    rw [mem_entriesOf]
    refine ⟨hname, Node.BasicLit p Token.STRING v, harg, hR, ?_, rfl⟩
    exact (skipped_eq_false_iff R).2 ⟨hint, hsharp⟩
  obtain ⟨e, he, hk, hp⟩ := PosMap.exists_of_mem_get _ _ _ hget
  show _ ∈ report _ _
  rw [mem_report]
  refine ⟨e, he, ?_, hp, ?_⟩
  · rw [hk]; exact hdecl
  · simp [hk]

/-- Witness of C1 (amended): the misspelt `nmae` of `typoFile` is reported at the
position of the literal. -/
theorem run_reports_unknown_component_witness :
    Diagnostic.mk 42 (notFound "nmae") ∈ (run [typoFile]).diagnostics :=
  run_reports_unknown_component [typoFile] typoFile
    (.SelectorExpr (.Ident ⟨30, "d"⟩) ⟨32, "HasChange"⟩)
    [.BasicLit 42 .STRING "\"nmae\""] 42 "\"nmae\"" "nmae"
    (List.mem_singleton.2 rfl)
    (by simp [typoFile, Node.visits, Node.visitsList])
    (by decide)
    (by simp [checkedArgs, getFunctionName])
    (by decide) (by decide) (by decide) (by decide)

/-! ## C2: soundness of `run` -/

theorem mem_declaredBy (o : Option Node) (k : String) :
    k ∈ declaredBy o ↔
      getCompositeLiteralKey o = (k, true) ∨ getStringLiteralInAssignment o = (k, true) := by
  unfold declaredBy
  rcases getCompositeLiteralKey o with ⟨k1, b1⟩
  rcases getStringLiteralInAssignment o with ⟨k2, b2⟩
  cases b1 <;> cases b2 <;> simp [eq_comm]

theorem declaredBy_none : declaredBy none = [] := rfl

theorem not_reported_of_declared (D : List String) (m : PosMap) (k : String) (hk : k ∈ D) :
    ∀ d ∈ report D m, d.message ≠ notFound k := by
  intro d hd hm
  obtain ⟨e, _, hD, _, hmsg⟩ := (mem_report D m d).1 hd
  have : e.1 = k := notFound_injective _ _ (hmsg.symm.trans hm)
  exact hD (this ▸ hk)

/-- C2: the schema keys `run` collects are the keys of the key/value pairs and of
the indexed assignments found at any node of any file, and for a collected key
`R` no report of `run` carries the message naming `R`, wherever and however
often `R` is referenced. -/
theorem run_silent_on_declared (files : List Node) (R : String) :
    (R ∈ (collect files).schemaKeysSet ↔
      ∃ file ∈ files, ∃ n : Node, some n ∈ file.visits ∧
        (getCompositeLiteralKey (some n) = (R, true) ∨
          getStringLiteralInAssignment (some n) = (R, true))) ∧
    (R ∈ (collect files).schemaKeysSet →
      ∀ d ∈ (run files).diagnostics, d.message ≠ notFound R) := by
  constructor
  · rw [mem_collect_schemaKeysSet]
    constructor
    · rintro ⟨o, ho, hk⟩
      obtain ⟨file, hfile, hof⟩ := (mem_allVisits files o).1 ho
      cases o with
      | none => simp [declaredBy_none] at hk
      | some n => exact ⟨file, hfile, n, hof, (mem_declaredBy _ _).1 hk⟩
    · rintro ⟨file, hfile, n, hn, hk⟩
      exact ⟨some n, (mem_allVisits files _).2 ⟨file, hfile, hn⟩, (mem_declaredBy _ _).2 hk⟩
  · intro hR
    exact not_reported_of_declared _ _ R hR

/-- Witness of C2: `declaredFile` references `name` before and after declaring
it, and nothing is reported for `name`. -/
theorem run_silent_on_declared_witness :
    "name" ∈ (collect [declaredFile]).schemaKeysSet ∧
      ∀ d ∈ (run [declaredFile]).diagnostics, d.message ≠ notFound "name" :=
  ⟨by decide, (run_silent_on_declared [declaredFile] "name").2 (by decide)⟩

/-! ## C3: the cross-check loop -/

/-- C3: the second loop of `run` is `report` on the two collections.  For every
set of schema keys and every map (one entry per key, in any order): the reports
naming a key `k` that is not a schema key are, in order, one per recorded
position of `k`, each with the message
`schema field/component '<k>' not found in package`, so their number is the
length of the list of `k`; nothing is reported for a schema key; and every
report is one of these. -/
theorem report_exact (D : List String) (m : PosMap) (hm : m.keys.Nodup) :
    (∀ k, k ∉ D →
      (report D m).filter (fun d => decide (d.message = notFound k)) =
          (m.get k).map
            (fun p => Diagnostic.mk p ("schema field/component '" ++ k ++ "' not found in package")) ∧
        ((report D m).filter (fun d => decide (d.message = notFound k))).length =
          (m.get k).length) ∧
    (∀ k, k ∈ D → ∀ d ∈ report D m, d.message ≠ notFound k) ∧
    (∀ d ∈ report D m, ∃ k ∈ m.keys, k ∉ D ∧ d.pos ∈ m.get k ∧ d.message = notFound k) ∧
    (∀ files : List Node,
      (run files).diagnostics =
          report (collect files).schemaKeysSet (collect files).argumentComponentSet ∧
        (collect files).argumentComponentSet.keys.Nodup) := by
  refine ⟨?_, ?_, ?_, ?_⟩
  · intro k hk
    have h := filter_report D m hm k
    simp only [hk, if_false] at h
    rw [h]
    exact ⟨rfl, by simp⟩
  · intro k hk
    exact not_reported_of_declared D m k hk
  · intro d hd
    obtain ⟨e, he, hD, hp, hmsg⟩ := (mem_report D m d).1 hd
    refine ⟨e.1, List.mem_map_of_mem Prod.fst he, hD, ?_, hmsg⟩
    rw [PosMap.get_of_mem m hm e he]
    exact hp
  · intro files
    exact ⟨rfl, nodup_keys_collect files⟩

/-- Witness of C3: with the schema key `name` and a map that records `nmae`
twice and `name` once, exactly the two positions of `nmae` are reported. -/
theorem report_exact_witness :
    (report ["name"] [("nmae", [42, 50]), ("name", [15])]).filter
        (fun d => decide (d.message = notFound "nmae")) =
      [⟨42, "schema field/component 'nmae' not found in package"⟩,
       ⟨50, "schema field/component 'nmae' not found in package"⟩] :=
  ((report_exact ["name"] [("nmae", [42, 50]), ("name", [15])] (by decide)).1 "nmae"
    (by decide)).1

/-! ## C4: which arguments of an accessor call are checked -/

theorem getArgumentComponents_of_not_string (arg : Node)
    (h : ∀ p v, arg ≠ Node.BasicLit p Token.STRING v) : getArgumentComponents arg = [] := by
  cases arg with
  | BasicLit p k v =>
    cases k with
    | STRING => exact absurd rfl (h p v)
    | _ => rfl
  | _ => rfl

theorem argsLoop_HasChanges (args : List Node) (m : PosMap) :
    argsLoop "HasChanges" args m =
      args.foldl (fun m arg => compsLoop arg (getArgumentComponents arg) m) m := by
  induction args generalizing m with
  | nil => rfl
  | cons a rest ih =>
    simp only [argsLoop, ne_eq, not_true_eq_false, if_false, List.foldl_cons]
    exact ih _

/-- C4: on a call named `HasChanges` the closure of `run` runs the component loop
on every argument in turn, each with its own components and its own position;
on a call named `HasChange`, `Get`, `Set`, `GetOk` or `GetChange` it runs the
component loop on the first argument only, whatever the later arguments are, and
adds nothing at all when the first argument is not a string literal. -/
theorem accessor_argument_law (fn : Node) (args : List Node) (s : State) :
    (getFunctionName (some (Node.CallExpr fn args)) = "HasChanges" →
      (visit (some (Node.CallExpr fn args)) s).1.argumentComponentSet =
        args.foldl (fun m arg => compsLoop arg (getArgumentComponents arg) m)
          s.argumentComponentSet) ∧
    (getFunctionName (some (Node.CallExpr fn args)) ∈
        ["HasChange", "Get", "Set", "GetOk", "GetChange"] →
      ∀ (first : Node) (rest : List Node), args = first :: rest →
        (visit (some (Node.CallExpr fn args)) s).1.argumentComponentSet =
            compsLoop first (getArgumentComponents first) s.argumentComponentSet ∧
          ((∀ p v, first ≠ Node.BasicLit p Token.STRING v) →
            (visit (some (Node.CallExpr fn args)) s).1.argumentComponentSet =
              s.argumentComponentSet)) := by
  constructor
  · intro hn
    have hal : getFunctionName (some (Node.CallExpr fn args)) ∈ allowList := by
      rw [hn]; decide
    simp only [visit, hal, if_true, getFunctionArguments]
    rw [hn]
    exact argsLoop_HasChanges args _
  · intro hn first rest hargs
    have hal : getFunctionName (some (Node.CallExpr fn args)) ∈ allowList := by
      revert hn
      generalize getFunctionName (some (Node.CallExpr fn args)) = name
      intro hn
      simp only [List.mem_cons, List.mem_singleton, List.not_mem_nil, or_false] at hn
      rcases hn with h | h | h | h | h <;> subst h <;> decide
    have hne : getFunctionName (some (Node.CallExpr fn args)) ≠ "HasChanges" := by
      revert hn
      generalize getFunctionName (some (Node.CallExpr fn args)) = name
      intro hn
      simp only [List.mem_cons, List.mem_singleton, List.not_mem_nil, or_false] at hn
      rcases hn with h | h | h | h | h <;> subst h <;> decide
    have h1 : (visit (some (Node.CallExpr fn args)) s).1.argumentComponentSet =
        compsLoop first (getArgumentComponents first) s.argumentComponentSet := by
      simp only [visit, hal, if_true, getFunctionArguments]
      rw [hargs] at hne ⊢
      simp only [argsLoop, ne_eq, hne, not_false_eq_true, if_true]
    refine ⟨h1, ?_⟩
    intro hlit
    rw [h1, getArgumentComponents_of_not_string first hlit]
    rfl

/-- Witness of C4: `HasChanges("a", x, "b.c")` records `a`, `b` and `c`, each at
the position of its own literal, and `Get(x, "a")` records nothing. -/
theorem accessor_argument_law_witness :
    (visit (some (Node.CallExpr (.Ident ⟨1, "HasChanges"⟩)
        [.BasicLit 12 .STRING "\"a\"", .Ident ⟨17, "x"⟩, .BasicLit 20 .STRING "\"b.c\""]))
        ⟨[], []⟩).1.argumentComponentSet =
      [("a", [12]), ("b", [20]), ("c", [20])] ∧
    (visit (some (Node.CallExpr (.Ident ⟨1, "Get"⟩)
        [.Ident ⟨5, "x"⟩, .BasicLit 8 .STRING "\"a\""])) ⟨[], []⟩).1.argumentComponentSet = [] :=
  ⟨((accessor_argument_law (.Ident ⟨1, "HasChanges"⟩)
      [.BasicLit 12 .STRING "\"a\"", .Ident ⟨17, "x"⟩, .BasicLit 20 .STRING "\"b.c\""]
      ⟨[], []⟩).1 rfl).trans (by decide),
   ((accessor_argument_law (.Ident ⟨1, "Get"⟩)
      [.Ident ⟨5, "x"⟩, .BasicLit 8 .STRING "\"a\""] ⟨[], []⟩).2 (by decide)
      (.Ident ⟨5, "x"⟩) [.BasicLit 8 .STRING "\"a\""] rfl).2 (by intro p v h; cases h)⟩

/-! ## Splitting never returns the empty list -/

theorem splitChars_ne_nil (sep : Char) (cs : List Char) : splitChars sep cs ≠ [] := by
  cases cs with
  | nil => simp [splitChars]
  | cons c rest =>
    unfold splitChars
    split
    · simp
    · split <;> simp

theorem getArgumentComponents_string_ne_nil (p : Pos) (v : String) :
    getArgumentComponents (Node.BasicLit p Token.STRING v) ≠ [] := by
  simp [getArgumentComponents, Split, splitChars_ne_nil]

/-! ## C5: the splitting law

The law compares a call on a whole path with one call per component.  It
depends on the extraction of the string of a literal, and breaks where that
extraction does: for a path written as a raw literal, and for a path with a
component that ends in an escaped double quote. -/

/-- C5 (the code at the failing inputs).  With the keys `a` and `b` declared,
the call of `d.Get` on the raw literal `a.b` is reported twice, for components
that carry a backquote, while the two calls `d.Get("a")`, `d.Get("b")` are not
reported at all, and the two calls on the raw literals `a` and `b` are reported
for other names.  With nothing declared, `d.Get("a\".b")` is reported for a
first component that ends in a double quote, while the call on that component
alone, `d.Get("a\"")`, is reported for `a\`, without the quote. -/
theorem splitting_law_fails_on_raw_and_escaped_paths :
    (run [rawPathFile]).diagnostics = [⟨116, notFound "`a"⟩, ⟨116, notFound "b`"⟩] ∧
    (run [splitPathFile]).diagnostics = [] ∧
    (run [splitRawPathFile]).diagnostics = [⟨116, notFound "`a`"⟩, ⟨136, notFound "`b`"⟩] ∧
    (run [escapedPathFile]).diagnostics = [⟨116, notFound "a\\\""⟩, ⟨116, notFound "b"⟩] ∧
    (run [escapedSplitFile]).diagnostics = [⟨116, notFound "a\\"⟩, ⟨136, notFound "b"⟩] := by
  decide

/-! ## C6: what the keys of the map cannot be -/

theorem mem_keys_collect_filter (files : List Node) (k : String)
    (h : k ∈ (collect files).argumentComponentSet.keys) : Atoi k = none ∧ k ≠ "#" := by
  obtain ⟨o, _, p, hp⟩ := (mem_keys_collect files k).1 h
  obtain ⟨_, arg, _, _, hs, _⟩ := (mem_entriesOf o k p).1 hp
  exact (skipped_eq_false_iff k).1 hs

theorem Atoi_of_isDigits (s : String) (h : isDigits s.data = true) :
    Atoi s =
      if decimalValue s.data < 2 ^ (intSize - 1) then some (decimalValue s.data : Int)
      else none := by
  unfold Atoi
  split
  · rename_i ds hs
    rw [hs] at h
    simp [isDigits, Char.isDigit] at h
  · rename_i ds hs
    rw [hs] at h
    simp [isDigits, Char.isDigit] at h
  · simp [h]

/-- C6, as stated, fails: the component of `d.Get("99999999999999999999")` is a
string of decimal digits, too large for an `int`; it becomes a key of the map
and a report names it. -/
theorem numeric_key_recorded :
    isDigits "99999999999999999999".data = true ∧
    "99999999999999999999" ∈ (collect [bigIndexFile]).argumentComponentSet.keys ∧
    Diagnostic.mk 16 (notFound "99999999999999999999") ∈ (run [bigIndexFile]).diagnostics := by
  decide

/-- C6 (amended): for every list of files, no key of the map built by `run` is
accepted by `Atoi` and no key is `#`, hence no report names such a component; a
key made of decimal digits only denotes a number beyond the range of `int`. -/
theorem keys_never_parse_as_int (files : List Node) :
    (∀ k ∈ (collect files).argumentComponentSet.keys, Atoi k = none ∧ k ≠ "#") ∧
    (∀ d ∈ (run files).diagnostics, ∀ k, d.message = notFound k → Atoi k = none ∧ k ≠ "#") ∧
    (∀ k ∈ (collect files).argumentComponentSet.keys,
      isDigits k.data = true → 2 ^ 63 ≤ decimalValue k.data) := by
  refine ⟨fun k hk => mem_keys_collect_filter files k hk, ?_, ?_⟩
  · intro d hd k hm
    obtain ⟨e, he, _, _, hmsg⟩ := (mem_report _ _ d).1 hd
    have hk : e.1 = k := notFound_injective _ _ (hmsg.symm.trans hm)
    exact mem_keys_collect_filter files k (hk ▸ List.mem_map_of_mem Prod.fst he)
  · intro k hk hdig
    have h1 := (mem_keys_collect_filter files k hk).1
    rw [Atoi_of_isDigits k hdig] at h1
    by_contra hlt
    have hlt2 : decimalValue k.data < 2 ^ (intSize - 1) := by
      have : intSize - 1 = 63 := rfl
      rw [this]
      omega
    simp [hlt2] at h1

/-- Witness of C6 (amended): the key `nmae` recorded for `typoFile` does not parse
as an integer and is not `#`. -/
theorem keys_never_parse_as_int_witness : Atoi "nmae" = none ∧ "nmae" ≠ "#" :=
  (keys_never_parse_as_int [typoFile]).1 "nmae" (by decide)

/-! ## C7: the exact filter rule -/

theorem isSome_Atoi_iff (s : String) :
    (Atoi s).isSome = true ↔
      ∃ ds : List Char, isDigits ds = true ∧
        (((s.data = ds ∨ s.data = '+' :: ds) ∧ decimalValue ds < 2 ^ (intSize - 1)) ∨
          (s.data = '-' :: ds ∧ decimalValue ds ≤ 2 ^ (intSize - 1))) := by
  have hminus : ∀ ds : List Char, isDigits ('-' :: ds) = false := by
    intro ds; simp [isDigits, Char.isDigit]
  have hplus : ∀ ds : List Char, isDigits ('+' :: ds) = false := by
    intro ds; simp [isDigits, Char.isDigit]
  unfold Atoi
  split
  · rename_i ds hs
    constructor
    · intro h
      refine ⟨ds, ?_, Or.inr ⟨hs, ?_⟩⟩
      · by_contra hd
        simp [hd] at h
      · by_contra hd
        simp [hd] at h
    · rintro ⟨ds1, hd1, (⟨h1 | h1, _⟩ | ⟨h1, hv⟩)⟩
      · rw [hs] at h1
        rw [← h1, hminus] at hd1
        cases hd1
      · rw [hs] at h1
        simp at h1
      · rw [hs] at h1
        simp at h1
        subst h1
        simp [hd1, hv]
  · rename_i ds hs
    constructor
    · intro h
      refine ⟨ds, ?_, Or.inl ⟨Or.inr hs, ?_⟩⟩
      · by_contra hd
        simp [hd] at h
      · by_contra hd
        simp [hd] at h
    · rintro ⟨ds1, hd1, (⟨h1 | h1, hv⟩ | ⟨h1, _⟩)⟩
      · rw [hs] at h1
        rw [← h1, hplus] at hd1
        cases hd1
      · rw [hs] at h1
        simp at h1
        subst h1
        simp [hd1, hv]
      · rw [hs] at h1
        simp at h1
  · rename_i ds hm hp
    constructor
    · intro h
      refine ⟨s.data, ?_, Or.inl ⟨Or.inl rfl, ?_⟩⟩
      · by_contra hd
        simp [hd] at h
      · by_contra hd
        simp [hd] at h
    · rintro ⟨ds1, hd1, (⟨h1 | h1, hv⟩ | ⟨h1, _⟩)⟩
      · subst h1
        simp [hd1, hv]
      · exact absurd h1 (hp ds1)
      · exact absurd h1 (hm ds1)

theorem compsLoop_cons (arg : Node) (comp : String) (rest : List String) (m : PosMap) :
    compsLoop arg (comp :: rest) m =
      if (Atoi comp).isSome = true ∨ comp = "#" then compsLoop arg rest m
      else compsLoop arg rest (m.appendAt comp arg.Pos) := by
  cases hc : ((Atoi comp).isSome || comp == "#")
  · have hc1 : ¬ ((Atoi comp).isSome = true ∨ comp = "#") := by
      intro h
      have : ((Atoi comp).isSome || comp == "#") = true := by simpa using h
      rw [hc] at this
      cases this
    simp only [compsLoop, hc, hc1, if_false, Bool.false_eq_true]
  · have hc1 : (Atoi comp).isSome = true ∨ comp = "#" := by simpa using hc
    simp only [compsLoop, hc, hc1, if_true]

theorem get_compsLoop (arg : Node) (comps : List String) (m : PosMap) (k : String) :
    (compsLoop arg comps m).get k =
      if (Atoi k).isSome = true ∨ k = "#" then m.get k
      else m.get k ++ List.replicate (comps.count k) arg.Pos := by
  induction comps generalizing m with
  | nil => simp [compsLoop]
  | cons c rest ih =>
    rw [compsLoop_cons]
    by_cases hc : (Atoi c).isSome = true ∨ c = "#"
    · simp only [hc, if_true, ih]
      by_cases hk : (Atoi k).isSome = true ∨ k = "#"
      · simp only [hk, if_true]
      · simp only [hk, if_false]
        have hne : k ≠ c := by
          rintro rfl
          exact hk hc
        rw [List.count_cons_of_ne hne]
    · simp only [hc, if_false, ih, PosMap.get_appendAt]
      by_cases hk : (Atoi k).isSome = true ∨ k = "#"
      · simp only [hk, if_true]
        have hne : ¬ c = k := by
          rintro rfl
          exact hc hk
        simp only [hne, if_false]
      · simp only [hk, if_false]
        by_cases hck : c = k
        · subst hck
          simp [List.replicate_succ]
        · have hkc : k ≠ c := fun h => hck h.symm
          simp only [hck, if_false, List.count_cons_of_ne hkc]

/-- C7: in the component loop of `run`, a component is skipped exactly when `Atoi`
accepts it or it is `#`: the positions under such a key are unchanged, and under
every other key the position of the argument is appended once per occurrence of
the key among the components.  `Atoi` accepts exactly an optional sign `+` or `-`
followed by one or more decimal digits with a value in the range of `int`.  The
empty component is not skipped: it is appended under the key `""`. -/
theorem exact_filter_rule :
    (∀ (arg : Node) (comps : List String) (m : PosMap) (k : String),
      (compsLoop arg comps m).get k =
        if (Atoi k).isSome = true ∨ k = "#" then m.get k
        else m.get k ++ List.replicate (comps.count k) arg.Pos) ∧
    (∀ (arg : Node) (comp : String) (rest : List String) (m : PosMap),
      compsLoop arg (comp :: rest) m =
        if (Atoi comp).isSome = true ∨ comp = "#" then compsLoop arg rest m
        else compsLoop arg rest (m.appendAt comp arg.Pos)) ∧
    (∀ s : String, (Atoi s).isSome = true ↔
      ∃ ds : List Char, isDigits ds = true ∧
        (((s.data = ds ∨ s.data = '+' :: ds) ∧ decimalValue ds < 2 ^ 63) ∨
          (s.data = '-' :: ds ∧ decimalValue ds ≤ 2 ^ 63))) ∧
    (∀ (arg : Node) (m : PosMap),
      compsLoop arg [""] m = m.appendAt "" arg.Pos ∧
        (compsLoop arg [""] m).get "" = m.get "" ++ [arg.Pos]) := by
  refine ⟨get_compsLoop, compsLoop_cons, isSome_Atoi_iff, ?_⟩
  · intro arg m
    have h1 : compsLoop arg [""] m = m.appendAt "" arg.Pos := by
      have : ((Atoi "").isSome || "" == "#") = false := by decide
      simp only [compsLoop, this, Bool.false_eq_true, if_false]
    refine ⟨h1, ?_⟩
    rw [h1, PosMap.get_appendAt]
    simp

/-! ## C8, C9, C10: the string of a literal

The three extraction functions take the text of the literal, as the parser
stores it in `BasicLit.Value` with its quote characters, and remove the double
quotes at both ends with `strings.Trim`.  A raw literal is written between
backquotes, which `Trim` leaves in place, and an interpreted literal that ends
in an escaped double quote loses that quote as well. -/

/-- C8 (the code at the failing inputs): for the key written as the raw literal
`name` between backquotes, `getCompositeLiteralKey` returns the text with its
backquotes; for the key `"a\""` it returns `a\`, without the escaped quote; and
`run` then reports `name` as not found although the raw key declares it. -/
theorem getCompositeLiteralKey_raw_and_escaped :
    getCompositeLiteralKey
        (some (.KeyValueExpr (.BasicLit 6 .STRING "`name`") (.Other 14 []))) =
      ("`name`", true) ∧
    getCompositeLiteralKey
        (some (.KeyValueExpr (.BasicLit 6 .STRING "\"a\\\"\"") (.Other 14 []))) =
      ("a\\", true) ∧
    (run [rawKeyFile]).diagnostics = [⟨36, notFound "name"⟩] := by
  decide

/-- C9 (the code at the failing input): for an assignment whose target is indexed
by the raw literal `slice_service_type` between backquotes,
`getStringLiteralInAssignment` returns the text with its backquotes. -/
theorem getStringLiteralInAssignment_raw_index :
    getStringLiteralInAssignment
        (some (.AssignStmt
          [.IndexExpr (.Ident ⟨3, "s"⟩) (.BasicLit 5 .STRING "`slice_service_type`")]
          [.Other 30 []])) =
      ("`slice_service_type`", true) := by
  decide

/-- C10 (the code at the failing inputs): for the raw literal `block.0.inner`
between backquotes, `getArgumentComponents` returns components that carry the
backquotes, and for the raw literal `foo` a component that is not `foo`. -/
theorem getArgumentComponents_raw_literal :
    getArgumentComponents (.BasicLit 9 .STRING "`block.0.inner`") =
      ["`block", "0", "inner`"] ∧
    getArgumentComponents (.BasicLit 9 .STRING "`foo`") = ["`foo`"] := by
  decide

/-! ## C11: arguments that are not string literals -/

theorem entriesOfArg_of_not_string (arg : Node)
    (h : ∀ p v, arg ≠ Node.BasicLit p Token.STRING v) : entriesOfArg arg = [] := by
  simp [entriesOfArg, getArgumentComponents_of_not_string arg h]

theorem visit_call_schemaKeysSet (fn : Node) (args : List Node) (s : State) :
    (visit (some (Node.CallExpr fn args)) s).1.schemaKeysSet = s.schemaKeysSet := rfl

/-- C11: `getArgumentComponents` returns the nil slice for every argument that is
not a string literal (an identifier, a literal of another kind, any other
expression); and on a call whose checked arguments are all such, the closure of
`run` leaves both collections as they were, so the call adds no entry to the map
and leads to no report. -/
theorem non_literal_arguments_skipped :
    (∀ arg : Node, (∀ p v, arg ≠ Node.BasicLit p Token.STRING v) →
      getArgumentComponents arg = []) ∧
    (∀ (fn : Node) (args : List Node) (s : State),
      (∀ arg ∈ checkedArgs (getFunctionName (some (Node.CallExpr fn args))) args,
        ∀ p v, arg ≠ Node.BasicLit p Token.STRING v) →
      visit (some (Node.CallExpr fn args)) s = (s, true) ∧
        report (visit (some (Node.CallExpr fn args)) s).1.schemaKeysSet
            (visit (some (Node.CallExpr fn args)) s).1.argumentComponentSet =
          report s.schemaKeysSet s.argumentComponentSet) := by
  refine ⟨getArgumentComponents_of_not_string, ?_⟩
  intro fn args s h
  have hentries : entriesOf (some (Node.CallExpr fn args)) = [] := by
    unfold entriesOf
    split
    · rw [List.flatMap_eq_nil_iff]
      intro arg harg
      exact entriesOfArg_of_not_string arg (h arg harg)
    · rfl
  have hv : visit (some (Node.CallExpr fn args)) s = (s, true) := by
    have h1 := visit_argumentComponentSet (some (Node.CallExpr fn args)) s
    rw [hentries, PosMap.appendAll_nil] at h1
    have h2 := visit_call_schemaKeysSet fn args s
    have h3 := visit_snd (some (Node.CallExpr fn args)) s
    generalize visit (some (Node.CallExpr fn args)) s = r at h1 h2 h3
    obtain ⟨⟨ks, acs⟩, b⟩ := r
    simp only at h1 h2 h3
    subst h1 h2 h3
    rfl
  exact ⟨hv, by rw [hv]⟩

/-- Witness of C11: for `d.HasChange(someVariable)` the map stays empty and `run`
reports nothing. -/
theorem non_literal_arguments_skipped_witness :
    visit (some (Node.CallExpr (.SelectorExpr (.Ident ⟨10, "d"⟩) ⟨12, "HasChange"⟩)
        [.Ident ⟨22, "someVariable"⟩])) ⟨[], []⟩ = (⟨[], []⟩, true) ∧
    (collect [variableArgFile]).argumentComponentSet = [] ∧
    (run [variableArgFile]).diagnostics = [] :=
  ⟨(non_literal_arguments_skipped.2 (.SelectorExpr (.Ident ⟨10, "d"⟩) ⟨12, "HasChange"⟩)
      [.Ident ⟨22, "someVariable"⟩] ⟨[], []⟩
      (by
        intro arg harg p v hEq
        subst hEq
        simp [checkedArgs, getFunctionName] at harg)).1,
    by decide, by decide⟩

/-! ## C12: the name a call invokes -/

/-- C12: `getFunctionName` returns the member name for a call whose callee is a
member access, the identifier for a call whose callee is a bare identifier, and
the empty string for a call with any other callee and for every node that is
not a call (the `nil` node included). -/
theorem getFunctionName_spec :
    (∀ (x : Node) (sel : Ident) (args : List Node),
      getFunctionName (some (Node.CallExpr (Node.SelectorExpr x sel) args)) = sel.Name) ∧
    (∀ (id : Ident) (args : List Node),
      getFunctionName (some (Node.CallExpr (Node.Ident id) args)) = id.Name) ∧
    (∀ (fn : Node) (args : List Node),
      (∀ x sel, fn ≠ Node.SelectorExpr x sel) → (∀ id, fn ≠ Node.Ident id) →
      getFunctionName (some (Node.CallExpr fn args)) = "") ∧
    (∀ o : Option Node, (∀ fn args, o ≠ some (Node.CallExpr fn args)) →
      getFunctionName o = "") := by
  refine ⟨fun _ _ _ => rfl, fun _ _ => rfl, ?_, ?_⟩
  · intro fn args h1 h2
    cases fn with
    | SelectorExpr x sel => exact absurd rfl (h1 x sel)
    | Ident id => exact absurd rfl (h2 id)
    | _ => rfl
  · intro o h
    cases o with
    | none => rfl
    | some n =>
      cases n with
      | CallExpr fn args => exact absurd rfl (h fn args)
      | _ => rfl

/-- Witness of C12: the call `f(x)("name")`, whose callee is itself a call, yields
no name, and the node `notACall` yields no name. -/
theorem getFunctionName_spec_witness :
    getFunctionName (some (Node.CallExpr (.CallExpr (.Ident ⟨1, "f"⟩) [.Ident ⟨3, "x"⟩])
        [.BasicLit 6 .STRING "\"name\""])) = "" ∧
    getFunctionName (some (Node.Ident ⟨1, "notACall"⟩)) = "" :=
  ⟨getFunctionName_spec.2.2.1 (.CallExpr (.Ident ⟨1, "f"⟩) [.Ident ⟨3, "x"⟩])
      [.BasicLit 6 .STRING "\"name\""] (by intro x sel h; cases h) (by intro id h; cases h),
   getFunctionName_spec.2.2.2 (some (Node.Ident ⟨1, "notACall"⟩))
      (by intro fn args h; cases h)⟩

/-! ## C13: the allow-list -/

theorem entriesOf_eq_nil_of_not_allowed (o : Option Node) (h : getFunctionName o ∉ allowList) :
    entriesOf o = [] := by
  simp [entriesOf, h]

theorem visit_unchanged_of_not_allowed (o : Option Node) (s : State)
    (h : getFunctionName o ∉ allowList) :
    (visit o s).1.argumentComponentSet = s.argumentComponentSet := by
  rw [visit_argumentComponentSet, entriesOf_eq_nil_of_not_allowed o h, PosMap.appendAll_nil]

theorem getFunctionName_of_not_call (o : Option Node)
    (h : ∀ fn args, o ≠ some (Node.CallExpr fn args)) : getFunctionName o = "" := by
  cases o with
  | none => rfl
  | some n =>
    cases n with
    | CallExpr fn args => exact absurd rfl (h fn args)
    | _ => rfl

/-- C13: the closure of `run` changes the map only at a call whose invoked name
is, letter for letter, one of `HasChange`, `HasChanges`, `Get`, `Set`, `GetOk`,
`GetChange`: a call with any other name (a name in another case, the empty name
of a callee that yields none) and every node that is not a call leave the map
as it was. -/
theorem allow_list_gate :
    (∀ (o : Option Node) (s : State),
      (visit o s).1.argumentComponentSet ≠ s.argumentComponentSet →
      ∃ fn args, o = some (Node.CallExpr fn args) ∧
        getFunctionName o ∈ ["HasChange", "HasChanges", "Get", "Set", "GetOk", "GetChange"]) ∧
    (∀ (fn : Node) (args : List Node) (s : State),
      getFunctionName (some (Node.CallExpr fn args)) ∉
        ["HasChange", "HasChanges", "Get", "Set", "GetOk", "GetChange"] →
      (visit (some (Node.CallExpr fn args)) s).1.argumentComponentSet =
        s.argumentComponentSet) ∧
    (∀ (fn : Node) (args : List Node) (s : State),
      getFunctionName (some (Node.CallExpr fn args)) = "" →
      (visit (some (Node.CallExpr fn args)) s).1.argumentComponentSet =
        s.argumentComponentSet) ∧
    (∀ (o : Option Node) (s : State), (∀ fn args, o ≠ some (Node.CallExpr fn args)) →
      (visit o s).1.argumentComponentSet = s.argumentComponentSet) ∧
    ("hasChange" ∉ allowList ∧ "get" ∉ allowList ∧ "GETOK" ∉ allowList ∧
      "HasChanged" ∉ allowList ∧ "" ∉ allowList) := by
  refine ⟨?_, ?_, ?_, ?_, by decide⟩
  · intro o s hne
    have hal : getFunctionName o ∈ allowList := by
      by_contra h
      exact hne (visit_unchanged_of_not_allowed o s h)
    have hcall : ∃ fn args, o = some (Node.CallExpr fn args) := by
      by_contra h
      have h1 : ∀ fn args, o ≠ some (Node.CallExpr fn args) := by
        intro fn args he
        exact h ⟨fn, args, he⟩
      rw [getFunctionName_of_not_call o h1] at hal
      revert hal
      decide
    obtain ⟨fn, args, he⟩ := hcall
    exact ⟨fn, args, he, hal⟩
  · intro fn args s h
    exact visit_unchanged_of_not_allowed _ s h
  · intro fn args s h
    apply visit_unchanged_of_not_allowed
    rw [h]
    decide
  · intro o s h
    apply visit_unchanged_of_not_allowed
    rw [getFunctionName_of_not_call o h]
    decide

/-- Witness of C13: the call `d.hasChange("nmae")`, with a small `h`, adds nothing
to the map. -/
theorem allow_list_gate_witness :
    (visit (some (Node.CallExpr (.SelectorExpr (.Ident ⟨10, "d"⟩) ⟨12, "hasChange"⟩)
        [.BasicLit 22 .STRING "\"nmae\""])) ⟨[], []⟩).1.argumentComponentSet = [] :=
  allow_list_gate.2.1 (.SelectorExpr (.Ident ⟨10, "d"⟩) ⟨12, "hasChange"⟩)
    [.BasicLit 22 .STRING "\"nmae\""] ⟨[], []⟩ (by decide)

/-! ## C14: no failure path -/

theorem lhsLoop_not_found (lhs : List Node)
    (h : ∀ t ∈ lhs, ∀ x p v, t ≠ Node.IndexExpr x (Node.BasicLit p Token.STRING v)) :
    lhsLoop lhs = ("", false) := by
  induction lhs with
  | nil => rfl
  | cons t rest ih =>
    have hrest := ih (fun t1 ht1 => h t1 (List.mem_cons_of_mem _ ht1))
    have ht := h t (List.mem_cons_self _ _)
    cases t with
    | IndexExpr x i =>
      cases i with
      | BasicLit p k v =>
        cases k with
        | STRING => exact absurd rfl (ht x p v)
        | _ => simpa [lhsLoop] using hrest
      | _ => simpa [lhsLoop] using hrest
    | _ => simpa [lhsLoop] using hrest

theorem getCompositeLiteralKey_not_found (o : Option Node)
    (h : ∀ p v val, o ≠ some (Node.KeyValueExpr (Node.BasicLit p Token.STRING v) val)) :
    getCompositeLiteralKey o = ("", false) := by
  cases o with
  | none => rfl
  | some n =>
    cases n with
    | KeyValueExpr k val =>
      cases k with
      | BasicLit p kind v =>
        cases kind with
        | STRING => exact absurd rfl (h p v val)
        | _ => rfl
      | _ => rfl
    | _ => rfl

theorem getStringLiteralInAssignment_not_found (o : Option Node)
    (h : ∀ lhs rhs, o = some (Node.AssignStmt lhs rhs) →
      ∀ t ∈ lhs, ∀ x p v, t ≠ Node.IndexExpr x (Node.BasicLit p Token.STRING v)) :
    getStringLiteralInAssignment o = ("", false) := by
  cases o with
  | none => rfl
  | some n =>
    cases n with
    | AssignStmt lhs rhs => exact lhsLoop_not_found lhs (h lhs rhs rfl)
    | _ => rfl

theorem getFunctionArguments_of_not_call (o : Option Node)
    (h : ∀ fn args, o ≠ some (Node.CallExpr fn args)) : getFunctionArguments o = [] := by
  cases o with
  | none => rfl
  | some n =>
    cases n with
    | CallExpr fn args => exact absurd rfl (h fn args)
    | _ => rfl

theorem visit_none (s : State) : visit none s = (s, true) := rfl

/-- C14: `run` is a total function and returns the nil result with the nil error
for every list of files.  Its closure answers `true` at every node, so the walk
goes into the children of every node and the collections are the result of
calling the closure on every node of every file.  On the `nil` node the closure
changes nothing, and each predicate returns its not-found value on every node
that does not have the shape it looks for: a node that is not a key/value pair
with a string-literal key, an assignment with no string-indexed target or a node
that is not an assignment, a node that is not a call, an argument that is not a
string literal. -/
theorem run_never_fails :
    (∀ files : List Node, (run files).result = none ∧ (run files).err = none) ∧
    (∀ (o : Option Node) (s : State), (visit o s).2 = true) ∧
    (∀ files : List Node,
      collect files = (allVisits files).foldl (fun s o => (visit o s).1) ⟨[], []⟩) ∧
    (∀ s : State, visit none s = (s, true)) ∧
    (getCompositeLiteralKey none = ("", false) ∧
      getStringLiteralInAssignment none = ("", false) ∧
      getFunctionName none = "" ∧ getFunctionArguments none = []) ∧
    (∀ o : Option Node,
      (∀ p v val, o ≠ some (Node.KeyValueExpr (Node.BasicLit p Token.STRING v) val)) →
      getCompositeLiteralKey o = ("", false)) ∧
    (∀ o : Option Node,
      (∀ lhs rhs, o = some (Node.AssignStmt lhs rhs) →
        ∀ t ∈ lhs, ∀ x p v, t ≠ Node.IndexExpr x (Node.BasicLit p Token.STRING v)) →
      getStringLiteralInAssignment o = ("", false)) ∧
    (∀ o : Option Node, (∀ fn args, o ≠ some (Node.CallExpr fn args)) →
      getFunctionName o = "" ∧ getFunctionArguments o = []) ∧
    (∀ arg : Node, (∀ p v, arg ≠ Node.BasicLit p Token.STRING v) →
      getArgumentComponents arg = []) :=
  ⟨fun _ => ⟨rfl, rfl⟩, visit_snd, collect_eq_foldl, visit_none, ⟨rfl, rfl, rfl, rfl⟩,
    getCompositeLiteralKey_not_found, getStringLiteralInAssignment_not_found,
    fun o h => ⟨getFunctionName_of_not_call o h, getFunctionArguments_of_not_call o h⟩,
    getArgumentComponents_of_not_string⟩

/-- Witness of C14: on a key/value pair whose key is an identifier, and on an
assignment to a plain variable, the two declaration predicates return their
not-found value. -/
theorem run_never_fails_witness :
    getCompositeLiteralKey
        (some (Node.KeyValueExpr (.Ident ⟨3, "Type"⟩) (.Ident ⟨9, "TypeString"⟩))) =
      ("", false) ∧
    getStringLiteralInAssignment
        (some (Node.AssignStmt [.Ident ⟨3, "x"⟩, .IndexExpr (.Ident ⟨6, "s"⟩) (.Ident ⟨8, "k"⟩)]
          [.Other 15 []])) =
      ("", false) :=
  ⟨run_never_fails.2.2.2.2.2.1 _ (by intro p v val h; cases h),
   run_never_fails.2.2.2.2.2.2.1 _ (by
      intro lhs rhs h t ht x p v hEq
      cases h
      subst hEq
      simp at ht)⟩

/-! ## C15: one position for all the components of an argument -/

/-- C15: for a string-literal argument at position `p`, the component loop of
`run` appends one entry per component that the filter keeps, in order, and all
of them carry the position `p` of the whole literal: the positions under a kept
key `k` grow by as many copies of `p` as `k` occurs among the components.  For
the literal `"x.x"` the key `x` is recorded twice at the same position, and for
`"a.0.b.#.c"` the three kept components get three entries at one position. -/
theorem coarse_positions :
    (∀ (p : Pos) (v : String) (m : PosMap),
      compsLoop (Node.BasicLit p Token.STRING v)
          (getArgumentComponents (Node.BasicLit p Token.STRING v)) m =
        m.appendAll
          (((getArgumentComponents (Node.BasicLit p Token.STRING v)).filter
            (fun c => !((Atoi c).isSome || c == "#"))).map (fun c => (c, p)))) ∧
    (∀ (p : Pos) (v : String) (m : PosMap) (k : String),
      (compsLoop (Node.BasicLit p Token.STRING v)
          (getArgumentComponents (Node.BasicLit p Token.STRING v)) m).get k =
        if (Atoi k).isSome = true ∨ k = "#" then m.get k
        else m.get k ++
          List.replicate ((getArgumentComponents (Node.BasicLit p Token.STRING v)).count k) p) ∧
    (visit (some (Node.CallExpr (.SelectorExpr (.Ident ⟨1, "d"⟩) ⟨3, "Get"⟩)
        [.BasicLit 7 .STRING "\"x.x\""])) ⟨[], []⟩).1.argumentComponentSet =
      [("x", [7, 7])] ∧
    (visit (some (Node.CallExpr (.SelectorExpr (.Ident ⟨1, "d"⟩) ⟨3, "Get"⟩)
        [.BasicLit 7 .STRING "\"a.0.b.#.c\""])) ⟨[], []⟩).1.argumentComponentSet =
      [("a", [7]), ("b", [7]), ("c", [7])] := by
  refine ⟨?_, ?_, by decide, by decide⟩
  · intro p v m
    exact compsLoop_eq _ _ m
  · intro p v m k
    exact get_compsLoop _ _ m k

/-! ## C17: more declarations, fewer reports -/

theorem all_ne_of_not_mem (D : List String) (k : String) (h : k ∉ D) :
    D.all (fun k1 => decide (notFound k ≠ notFound k1)) = true := by
  rw [List.all_eq_true]
  intro k1 hk1
  simp only [decide_eq_true_eq]
  intro he
  exact h (notFound_injective _ _ he ▸ hk1)

theorem all_ne_of_mem (D : List String) (k : String) (h : k ∈ D) :
    D.all (fun k1 => decide (notFound k ≠ notFound k1)) = false := by
  rw [← Bool.not_eq_true, List.all_eq_true]
  intro hall
  have := hall k h
  simp at this

theorem report_filter_declared (D D2 : List String) (m : PosMap) (hsub : ∀ k ∈ D, k ∈ D2) :
    report D2 m =
      (report D m).filter (fun d => D2.all (fun k => decide (d.message ≠ notFound k))) := by
  induction m with
  | nil => rfl
  | cons e rest ih =>
    obtain ⟨k, v⟩ := e
    by_cases hD : k ∈ D
    · have hD2 := hsub k hD
      simp only [report, hD, hD2, if_true, ih]
    · by_cases hD2 : k ∈ D2
      · simp only [report, hD, hD2, if_true, if_false, List.filter_append, ih]
        have : (v.map (fun pos => Diagnostic.mk pos (notFound k))).filter
            (fun d => D2.all (fun k => decide (d.message ≠ notFound k))) = [] := by
          rw [List.filter_eq_nil_iff]
          intro d hd
          obtain ⟨p, _, rfl⟩ := List.mem_map.1 hd
          simp only [all_ne_of_mem D2 k hD2, Bool.false_eq_true, not_false_eq_true]
        rw [this, List.nil_append]
      · simp only [report, hD, hD2, if_false, List.filter_append, ih]
        have : (v.map (fun pos => Diagnostic.mk pos (notFound k))).filter
            (fun d => D2.all (fun k => decide (d.message ≠ notFound k))) =
            v.map (fun pos => Diagnostic.mk pos (notFound k)) := by
          rw [List.filter_eq_self]
          intro d hd
          obtain ⟨p, _, rfl⟩ := List.mem_map.1 hd
          exact all_ne_of_not_mem D2 k hD2
        rw [this]

/-- C17: for a fixed map and schema-key lists `D` and `D2` with every key of `D`
in `D2`, the reports made with `D2` are those made with `D` from which the
reports naming a key of `D2` are removed, in the same order; so they form a
sublist, every report made with `D2` is made with `D`, and a report that is
removed names a key that is in `D2` and not in `D`. -/
theorem report_antitone (D D2 : List String) (m : PosMap) (hsub : ∀ k ∈ D, k ∈ D2) :
    report D2 m =
      (report D m).filter (fun d => D2.all (fun k => decide (d.message ≠ notFound k))) ∧
    (report D2 m).Sublist (report D m) ∧
    (∀ d, (report D2 m).count d ≤ (report D m).count d) ∧
    (∀ d ∈ report D m, d ∉ report D2 m → ∃ k ∈ D2, k ∉ D ∧ d.message = notFound k) ∧
    (∀ d ∈ report D m, (∀ k ∈ D2, k ∉ D → d.message ≠ notFound k) → d ∈ report D2 m) := by
  have hf := report_filter_declared D D2 m hsub
  have hremoved : ∀ d ∈ report D m, d ∉ report D2 m →
      ∃ k ∈ D2, k ∉ D ∧ d.message = notFound k := by
    intro d hd hnot
    rw [hf, List.mem_filter] at hnot
    have hall : ¬ D2.all (fun k => decide (d.message ≠ notFound k)) = true :=
      fun h => hnot ⟨hd, h⟩
    rw [List.all_eq_true] at hall
    push_neg at hall
    obtain ⟨k, hk, hne⟩ := hall
    have hmsg : d.message = notFound k := by simpa using hne
    refine ⟨k, hk, ?_, hmsg⟩
    intro hkD
    exact not_reported_of_declared D m k hkD d hd hmsg
  refine ⟨hf, ?_, ?_, hremoved, ?_⟩
  · rw [hf]
    exact List.filter_sublist _
  · intro d
    rw [hf]
    exact (List.filter_sublist _).count_le d
  · intro d hd hno
    by_contra hnot
    obtain ⟨k, hk, hkD, hmsg⟩ := hremoved d hd hnot
    exact hno k hk hkD hmsg

/-- Witness of C17: adding the key `nmae` to the schema keys removes the two
reports for `nmae` and keeps the report for `other`. -/
theorem report_antitone_witness :
    report ["name", "nmae"] [("nmae", [42, 50]), ("other", [60])] =
      (report ["name"] [("nmae", [42, 50]), ("other", [60])]).filter
        (fun d => ["name", "nmae"].all (fun k => decide (d.message ≠ notFound k))) :=
  (report_antitone ["name"] ["name", "nmae"] [("nmae", [42, 50]), ("other", [60])]
    (by decide)).1

/-! ## C19: the receiver does not matter -/

theorem visit_argumentComponentSet_congr (o1 o2 : Option Node) (s : State)
    (hn : getFunctionName o1 = getFunctionName o2)
    (ha : getFunctionArguments o1 = getFunctionArguments o2) :
    (visit o1 s).1.argumentComponentSet = (visit o2 s).1.argumentComponentSet := by
  simp only [visit, hn, ha]

/-- C19: what the closure of `run` adds to the map at a node depends only on the
invoked name and the argument list: two nodes with the same name and the same
arguments give the same map; so two member calls with the same member name and
arguments give the same map whatever their receivers are, and so does a call of
a bare identifier with that name. -/
theorem receiver_independence :
    (∀ (o1 o2 : Option Node) (s : State),
      getFunctionName o1 = getFunctionName o2 →
      getFunctionArguments o1 = getFunctionArguments o2 →
      (visit o1 s).1.argumentComponentSet = (visit o2 s).1.argumentComponentSet) ∧
    (∀ (x1 x2 : Node) (sel1 sel2 : Ident) (args : List Node) (s : State),
      sel1.Name = sel2.Name →
      (visit (some (Node.CallExpr (Node.SelectorExpr x1 sel1) args)) s).1.argumentComponentSet =
        (visit (some (Node.CallExpr (Node.SelectorExpr x2 sel2) args)) s).1.argumentComponentSet) ∧
    (∀ (x : Node) (sel id : Ident) (args : List Node) (s : State),
      id.Name = sel.Name →
      (visit (some (Node.CallExpr (Node.Ident id) args)) s).1.argumentComponentSet =
        (visit (some (Node.CallExpr (Node.SelectorExpr x sel) args)) s).1.argumentComponentSet) := by
  refine ⟨visit_argumentComponentSet_congr, ?_, ?_⟩
  · intro x1 x2 sel1 sel2 args s h
    exact visit_argumentComponentSet_congr _ _ s h rfl
  · intro x sel id args s h
    exact visit_argumentComponentSet_congr _ _ s h rfl

/-- Witness of C19: `d.Get("a.b")`, `meta.(*Client).Get("a.b")` written with another
receiver, and the bare `Get("a.b")` add the same entries. -/
theorem receiver_independence_witness :
    (visit (some (Node.CallExpr (.SelectorExpr (.Ident ⟨1, "d"⟩) ⟨3, "Get"⟩)
        [.BasicLit 7 .STRING "\"a.b\""])) ⟨[], []⟩).1.argumentComponentSet =
      (visit (some (Node.CallExpr
        (.SelectorExpr (.CallExpr (.Ident ⟨1, "client"⟩) []) ⟨40, "Get"⟩)
        [.BasicLit 7 .STRING "\"a.b\""])) ⟨[], []⟩).1.argumentComponentSet ∧
    (visit (some (Node.CallExpr (.Ident ⟨90, "Get"⟩)
        [.BasicLit 7 .STRING "\"a.b\""])) ⟨[], []⟩).1.argumentComponentSet =
      (visit (some (Node.CallExpr (.SelectorExpr (.Ident ⟨1, "d"⟩) ⟨3, "Get"⟩)
        [.BasicLit 7 .STRING "\"a.b\""])) ⟨[], []⟩).1.argumentComponentSet :=
  ⟨receiver_independence.2.1 (.Ident ⟨1, "d"⟩) (.CallExpr (.Ident ⟨1, "client"⟩) [])
      ⟨3, "Get"⟩ ⟨40, "Get"⟩ [.BasicLit 7 .STRING "\"a.b\""] ⟨[], []⟩ rfl,
   receiver_independence.2.2 (.Ident ⟨1, "d"⟩) ⟨3, "Get"⟩ ⟨90, "Get"⟩
      [.BasicLit 7 .STRING "\"a.b\""] ⟨[], []⟩ rfl⟩

/-! ## C20: the arguments of a call -/

/-- C20: `getFunctionArguments` returns the argument list of a call as it is (the
same expressions in the same order, the empty list for a call without
arguments), and the nil slice for every node that is not a call. -/
theorem getFunctionArguments_spec :
    (∀ (fn : Node) (args : List Node),
      getFunctionArguments (some (Node.CallExpr fn args)) = args) ∧
    (∀ fn : Node, getFunctionArguments (some (Node.CallExpr fn [])) = []) ∧
    (∀ o : Option Node, (∀ fn args, o ≠ some (Node.CallExpr fn args)) →
      getFunctionArguments o = []) :=
  ⟨fun _ _ => rfl, fun _ => rfl, getFunctionArguments_of_not_call⟩

/-- Witness of C20: the identifier `notACall` has no arguments. -/
theorem getFunctionArguments_spec_witness :
    getFunctionArguments (some (Node.Ident ⟨1, "notACall"⟩)) = [] :=
  getFunctionArguments_spec.2.2 (some (Node.Ident ⟨1, "notACall"⟩))
    (by intro fn args h; cases h)

/-! ## C16: the order of the files does not matter -/

theorem report_appendAt_perm (D : List String) (m : PosMap) (k : String) (p : Pos) :
    (report D (m.appendAt k p)).Perm
      (report D m ++ if k ∈ D then [] else [Diagnostic.mk p (notFound k)]) := by
  induction m with
  | nil =>
    by_cases hk : k ∈ D <;> simp [PosMap.appendAt, report, hk]
  | cons e rest ih =>
    obtain ⟨k1, v⟩ := e
    by_cases h1 : k1 = k
    · subst h1
      by_cases hk : k1 ∈ D
      · simp [PosMap.appendAt, report, hk]
      · simp only [PosMap.appendAt, if_true, report, hk, if_false, List.map_append,
          List.map_cons, List.map_nil, List.append_assoc]
        exact List.Perm.append_left _ List.perm_append_comm
    · by_cases hk1 : k1 ∈ D
      · simpa [PosMap.appendAt, report, h1, hk1] using ih
      · simp only [PosMap.appendAt, h1, if_false, report, hk1, List.append_assoc]
        exact List.Perm.append_left _ ih

theorem report_appendAll_perm (D : List String) (m : PosMap) (es : List (String × Pos)) :
    (report D (m.appendAll es)).Perm
      (report D m ++
        (es.filter (fun e => decide (e.1 ∉ D))).map (fun e => Diagnostic.mk e.2 (notFound e.1))) := by
  induction es generalizing m with
  | nil => simp [PosMap.appendAll]
  | cons e rest ih =>
    rw [PosMap.appendAll_cons]
    refine (ih (m.appendAt e.1 e.2)).trans ?_
    refine ((report_appendAt_perm D m e.1 e.2).append_right _).trans ?_
    by_cases he : e.1 ∈ D
    · simp [he, List.filter_cons]
    · simp [he, List.filter_cons]

theorem run_diagnostics_perm (files : List Node) :
    (run files).diagnostics.Perm
      ((((allVisits files).flatMap entriesOf).filter
        (fun e => decide (e.1 ∉ (collect files).schemaKeysSet))).map
        (fun e => Diagnostic.mk e.2 (notFound e.1))) := by
  show (report _ _).Perm _
  rw [collect_argumentComponentSet]
  simpa [report] using
    report_appendAll_perm (collect files).schemaKeysSet [] ((allVisits files).flatMap entriesOf)

theorem allVisits_perm (files files2 : List Node) (h : files.Perm files2) :
    (allVisits files).Perm (allVisits files2) :=
  List.Perm.flatMap_right _ h

theorem mem_schemaKeysSet_perm (files files2 : List Node) (h : files.Perm files2) (k : String) :
    k ∈ (collect files).schemaKeysSet ↔ k ∈ (collect files2).schemaKeysSet := by
  rw [mem_collect_schemaKeysSet, mem_collect_schemaKeysSet]
  constructor
  · rintro ⟨o, ho, hk⟩
    exact ⟨o, (allVisits_perm files files2 h).mem_iff.1 ho, hk⟩
  · rintro ⟨o, ho, hk⟩
    exact ⟨o, (allVisits_perm files files2 h).mem_iff.2 ho, hk⟩

/-- C16: for every list of files and every permutation of it, `run` collects the
same schema keys and makes the same reports up to their order (the same
position and message, the same number of times). -/
theorem run_order_independent (files files2 : List Node) (h : files.Perm files2) :
    (run files).diagnostics.Perm (run files2).diagnostics ∧
    (∀ d : Diagnostic, (run files).diagnostics.count d = (run files2).diagnostics.count d) ∧
    (∀ k : String, k ∈ (collect files).schemaKeysSet ↔ k ∈ (collect files2).schemaKeysSet) := by
  have hperm : (run files).diagnostics.Perm (run files2).diagnostics := by
    refine (run_diagnostics_perm files).trans ((List.Perm.map _ ?_).trans
      (run_diagnostics_perm files2).symm)
    have hfilter :
        ((allVisits files).flatMap entriesOf).filter
            (fun e => decide (e.1 ∉ (collect files).schemaKeysSet)) =
          ((allVisits files).flatMap entriesOf).filter
            (fun e => decide (e.1 ∉ (collect files2).schemaKeysSet)) := by
      apply List.filter_congr
      intro e _
      simp only [mem_schemaKeysSet_perm files files2 h e.1]
    rw [hfilter]
    exact List.Perm.filter _ (List.Perm.flatMap_right _ (allVisits_perm files files2 h))
  exact ⟨hperm, fun d => hperm.count_eq d, mem_schemaKeysSet_perm files files2 h⟩

/-- Witness of C16: the key `nmae` is declared in another file than the one that
references it; with the declaring file last or first the reports of `run` are
the same. -/
theorem run_order_independent_witness :
    (run [typoFile, lateDeclarationFile]).diagnostics.Perm
      (run [lateDeclarationFile, typoFile]).diagnostics :=
  (run_order_independent [typoFile, lateDeclarationFile] [lateDeclarationFile, typoFile]
    (List.Perm.swap _ _ _)).1

/-! ## C18: splitting and joining -/

theorem joinChars_splitChars (sep : Char) (cs : List Char) :
    joinChars [sep] (splitChars sep cs) = cs := by
  induction cs with
  | nil => rfl
  | cons c rest ih =>
    unfold splitChars
    by_cases hc : c = sep
    · simp only [hc, if_true]
      cases hsp : splitChars sep rest with
      | nil => exact absurd hsp (splitChars_ne_nil sep rest)
      | cons w ws =>
        rw [hsp] at ih
        simp [joinChars, ih]
    · simp only [hc, if_false]
      cases hsp : splitChars sep rest with
      | nil => exact absurd hsp (splitChars_ne_nil sep rest)
      | cons w ws =>
        rw [hsp] at ih
        cases ws with
        | nil =>
          simp only [joinChars] at ih ⊢
          rw [ih]
        | cons w2 ws2 =>
          simp only [joinChars] at ih ⊢
          rw [← ih]
          rfl

theorem not_mem_of_mem_splitChars (sep : Char) (cs : List Char) :
    ∀ w ∈ splitChars sep cs, sep ∉ w := by
  induction cs with
  | nil => simp [splitChars]
  | cons c rest ih =>
    unfold splitChars
    by_cases hc : c = sep
    · simp only [hc, if_true]
      intro w hw
      rcases List.mem_cons.1 hw with rfl | hw1
      · simp
      · exact ih w hw1
    · simp only [hc, if_false]
      cases hsp : splitChars sep rest with
      | nil => exact absurd hsp (splitChars_ne_nil sep rest)
      | cons w1 ws =>
        rw [hsp] at ih
        intro w hw
        rcases List.mem_cons.1 hw with rfl | hw1
        · have h1 := ih w1 (List.mem_cons_self _ _)
          simp only [List.mem_cons, not_or]
          exact ⟨fun h => hc h.symm, h1⟩
        · exact ih w (List.mem_cons_of_mem _ hw1)

theorem length_splitChars (sep : Char) (cs : List Char) :
    (splitChars sep cs).length = cs.count sep + 1 := by
  induction cs with
  | nil => rfl
  | cons c rest ih =>
    unfold splitChars
    by_cases hc : c = sep
    · simp [hc, ih]
    · have hne : sep ≠ c := fun h => hc h.symm
      simp only [hc, if_false, List.count_cons_of_ne hne]
      cases hsp : splitChars sep rest with
      | nil => exact absurd hsp (splitChars_ne_nil sep rest)
      | cons w1 ws =>
        rw [hsp] at ih
        simpa using ih

/-- C18: for every string-literal argument, joining the components returned by
`getArgumentComponents` with `.` gives back the trimmed text of the literal; the
result is not empty, no component contains `.`, and there is one component more
than there are `.` characters in the trimmed text. -/
theorem split_round_trip (p : Pos) (v : String) :
    Join (getArgumentComponents (Node.BasicLit p Token.STRING v)) "." = Trim v "\"" ∧
    getArgumentComponents (Node.BasicLit p Token.STRING v) ≠ [] ∧
    (∀ c ∈ getArgumentComponents (Node.BasicLit p Token.STRING v), '.' ∉ c.data) ∧
    (getArgumentComponents (Node.BasicLit p Token.STRING v)).length =
      (Trim v "\"").data.count '.' + 1 := by
  refine ⟨?_, getArgumentComponents_string_ne_nil p v, ?_, ?_⟩
  · apply String.ext
    simp only [Join, getArgumentComponents, Split, List.map_map]
    have hid : (String.data ∘ String.mk) = (id : List Char → List Char) := rfl
    rw [hid, List.map_id]
    exact joinChars_splitChars '.' _
  · intro c hc
    simp only [getArgumentComponents, Split, List.mem_map] at hc
    obtain ⟨w, hw, rfl⟩ := hc
    exact not_mem_of_mem_splitChars '.' _ w hw
  · simp only [getArgumentComponents, Split, List.length_map]
    exact length_splitChars '.' _

end FieldNameChecker
